import Mathlib

/-!
Verification of the raster pipeline in `sudan_damage_vis.py`
(Sudan-VNP46A3-Visualization).

Shallow embedding conventions:
* Brightness samples are IEEE floats whose only relevant non-finite value is
  the missing marker NaN (the loader replaces negative samples by NaN).  They
  are modelled as `Option ℚ`, `none` standing for a non-finite value; every
  arithmetic operation propagates `none`, matching IEEE NaN propagation.
  Division by zero also produces a non-finite value (±inf or NaN) and is
  likewise collapsed to `none`; no claim distinguishes inf from NaN.
* A numpy 2-D array is a rectangular `List (List Val)`; rectangularity is an
  explicit hypothesis where it matters.
* Python's `sorted` (a stable sort) is modelled by a stable insertion sort.
-/

/-- A brightness sample: `some q` for a finite float, `none` for NaN
(the missing-value marker) or any other non-finite value. -/
abbrev Val := Option ℚ

/-- IEEE addition on samples: NaN propagates. -/
def Val.add : Val → Val → Val
  | some a, some b => some (a + b)
  | _, _ => none

/-- IEEE subtraction on samples: NaN propagates. -/
def Val.sub : Val → Val → Val
  | some a, some b => some (a - b)
  | _, _ => none

/-- IEEE division on samples: NaN propagates; a zero denominator gives a
non-finite result (±inf or NaN), collapsed to the `none` marker. -/
def Val.div : Val → Val → Val
  | some a, some b => if b = 0 then none else some (a / b)
  | _, _ => none

/-- Is the sample a strictly negative finite number? -/
def Val.isNeg : Val → Bool
  | some a => decide (a < 0)
  | none => false

/-- A 2-D brightness array (row-major). -/
abbrev Mat := List (List Val)

/-- Elementwise combination of two 2-D arrays (used only where numpy would
require the shapes to agree; shape equality is a hypothesis in theorems). -/
def zipWith2d (f : Val → Val → Val) (m1 m2 : Mat) : Mat :=
  List.zipWith (List.zipWith f) m1 m2

/-- One `(light_data, lat_data, lon_data)` triple as built by
`load_data_for_date`. -/
structure Tile where
  values : Mat
  lat : List ℚ
  lon : List ℚ
deriving DecidableEq, Repr

/-- One `.h5` tile file: its `RangeEndingDate` attribute, the raw (unmasked)
`NearNadir_Composite_Snow_Free` grid, and the `lat` / `lon` vectors. -/
structure RawFile where
  date : String
  light : List (List ℚ)
  lat : List ℚ
  lon : List ℚ
deriving DecidableEq, Repr

/-- `np.where(light_data < 0, np.nan, light_data)`. -/
def maskNegatives (m : List (List ℚ)) : Mat :=
  m.map (fun row => row.map (fun q => if q < 0 then none else some q))

/-- `np.where(p(v))[0]` over a 1-D vector: the ascending list of indices
whose entry satisfies `p`. -/
def validIdxs (p : ℚ → Bool) (l : List ℚ) : List ℕ :=
  (List.range l.length).filter (fun i => p (l.getD i 0))

/-- `np.min` of a nonempty index list (0 on the empty list, unused there). -/
def natListMin : List ℕ → ℕ
  | [] => 0
  | x :: xs => xs.foldl min x

/-- `np.max` of a nonempty index list (0 on the empty list, unused there). -/
def natListMax : List ℕ → ℕ
  | [] => 0
  | x :: xs => xs.foldl max x

/-- The Python slice `l[a : b+1]`. -/
def pySlice (l : List α) (a b : ℕ) : List α :=
  (l.drop a).take (b + 1 - a)

/-- The per-file body of `load_data_for_date`: mask negatives, find the
index ranges of in-bounds longitudes and latitudes, skip the file if either
is empty, otherwise crop the grid and both coordinate vectors. -/
def trimFile (coords : ℚ × ℚ × ℚ × ℚ) (f : RawFile) : Option Tile :=
  let (southBound, northBound, westBound, eastBound) := coords
  let light := maskNegatives f.light
  let valid_lon := validIdxs (fun q => decide (westBound ≤ q) && decide (q ≤ eastBound)) f.lon
  let valid_lat := validIdxs (fun q => decide (southBound ≤ q) && decide (q ≤ northBound)) f.lat
  if valid_lon = [] ∨ valid_lat = [] then
    none
  else
    let first_lon := natListMin valid_lon
    let last_lon := natListMax valid_lon
    let first_lat := natListMin valid_lat
    let last_lat := natListMax valid_lat
    some { values := (pySlice light first_lat last_lat).map (fun row => pySlice row first_lon last_lon),
           lat := pySlice f.lat first_lat last_lat,
           lon := pySlice f.lon first_lon last_lon }

/-- The sort key `(data[-2][0], data[-1][0])`: first latitude, then first
longitude. -/
def tileKey (t : Tile) : ℚ × ℚ := (t.lat.headD 0, t.lon.headD 0)

/-- Python tuple comparison on the keys (lexicographic `≤`). -/
def keyLE (a b : Tile) : Bool :=
  decide ((tileKey a).1 < (tileKey b).1) ||
    (decide ((tileKey a).1 = (tileKey b).1) && decide ((tileKey a).2 ≤ (tileKey b).2))

/-- Stable insertion of a tile in front of the first kept tile it compares
`≤` to. -/
def insertTile (x : Tile) : List Tile → List Tile
  | [] => [x]
  | y :: ys => if keyLE x y then x :: y :: ys else y :: insertTile x ys

/-- `sorted(data_list, key=lambda data: (data[-2][0], data[-1][0]))`:
Python's `sorted` is a stable sort by key, modelled by stable insertion
sort. -/
def sortTiles : List Tile → List Tile
  | [] => []
  | x :: xs => insertTile x (sortTiles xs)

/-- `load_data_for_date`: keep the files whose date attribute equals the
requested one, trim each to the bounding box (dropping files with no
in-bounds coordinates), and sort the surviving tiles canonically. -/
def load_data_for_date (date_wanted : String) (coords : ℚ × ℚ × ℚ × ℚ)
    (files : List RawFile) : List Tile :=
  sortTiles (files.filterMap (fun f =>
    if f.date = date_wanted then trimFile coords f else none))

/-- `np.sum` over a 2-D array: the IEEE sum of all entries (NaN
propagates), 0 for an empty array. -/
def matSum (m : Mat) : Val :=
  m.foldl (fun acc row => row.foldl Val.add acc) (some 0)

/-- The running total `sumLights` of `normalize_data`: starts at 0 and adds
`np.sum(data[0])` for every tile. -/
def sumLights (l : List Tile) : Val :=
  l.foldl (fun acc t => Val.add acc (matSum t.values)) (some 0)

/-- `normalize_data`: divide every value of every tile by the grand total
`sumLights`; coordinate vectors are carried over unchanged. -/
def normalize_data (l : List Tile) : List Tile :=
  let s := sumLights l
  l.map (fun t =>
    { values := t.values.map (fun row => row.map (fun v => Val.div v s)),
      lat := t.lat, lon := t.lon })

/-- Refinement model of the spec sentence for the Normalizer, to compare
with `normalize_data` as translated from the source: "compute the grand
total of all brightness values across all tiles (missing values excluded
from the sum, treated as zero contribution), then divide every tile's
values by that total". -/
def normalize_data_specModel (l : List Tile) : List Tile :=
  let s : ℚ := (l.map (fun t =>
    (t.values.map (fun row => (row.map (fun v => v.getD 0)).sum)).sum)).sum
  l.map (fun t =>
    { values := t.values.map (fun row => row.map (fun v => Val.div v (some s))),
      lat := t.lat, lon := t.lon })

/-- The Python slice `l[::n]` for a step `n ≥ 1`: every `n`-th entry
starting at index 0.  `everyNthFrom n l k` still skips `k` entries before
the next pick. -/
def everyNthFrom (n : ℕ) : List α → ℕ → List α
  | [], _ => []
  | x :: xs, 0 => x :: everyNthFrom n xs (n - 1)
  | _ :: xs, k + 1 => everyNthFrom n xs k

/-- The Python slice `l[::n]`. -/
def everyNth (l : List α) (n : ℕ) : List α :=
  everyNthFrom n l 0

/-- The IEEE mean of the `n×n` block of `m` whose top-left cell is
`(i*n, j*n)`: block sum divided by the cell count. -/
def blockMean (m : Mat) (n i j : ℕ) : Val :=
  Val.div
    ((List.range n).foldl (fun acc a =>
      (List.range n).foldl (fun acc2 b =>
        Val.add acc2 ((m.getD (i * n + a) []).getD (j * n + b) none)) acc) (some 0))
    (some ((n * n : ℕ) : ℚ))

/-- `block_average`: trim the trailing rows and columns so both dimensions
are multiples of `n`; if either trimmed dimension is 0, raise (`none`,
caught by `chunk_data`); otherwise reshape into `n×n` blocks and replace
each block by its mean. -/
def block_average (m : Mat) (n : ℕ) : Option Mat :=
  let ny := m.length
  let nx := (m.headD []).length
  let ny_trim := ny - ny % n
  let nx_trim := nx - nx % n
  if ny_trim = 0 ∨ nx_trim = 0 then
    none
  else
    let trimmed := (m.take ny_trim).map (fun row => row.take nx_trim)
    some ((List.range (ny_trim / n)).map (fun i =>
      (List.range (nx_trim / n)).map (fun j => blockMean trimmed n i j)))

/-- The body of one `chunk_data` loop iteration on the tile at index
`i - 1`: block-average its grid and subsample its coordinate vectors, or
drop the tile when `block_average` raises. -/
def chunkTile (n : ℕ) (t : Tile) : Option Tile :=
  match block_average t.values n with
  | none => none
  | some v => some { values := v, lat := everyNth t.lat n, lon := everyNth t.lon n }

/-- The `while i > 0` loop of `chunk_data`, iterating from the last index
down to 0, replacing each tile in place or deleting it. -/
def chunkGo (n : ℕ) : List Tile → ℕ → List Tile
  | l, 0 => l
  | l, i + 1 =>
    match l.get? i with
    | none => chunkGo n l i
    | some t =>
      match chunkTile n t with
      | some tc => chunkGo n (l.set i tc) i
      | none => chunkGo n (l.eraseIdx i) i

/-- `chunk_data`: run the in-place loop over the whole list. -/
def chunk_data (l : List Tile) (n : ℕ) : List Tile :=
  chunkGo n l l.length

/-- `np.where(light1 == 0, -1, light1)`: the denominator grid of relative
mode (NaN compares unequal to 0 and is kept). -/
def whereZeroNegOne (m : Mat) : Mat :=
  m.map (fun row => row.map (fun v => if v = some 0 then some (-1) else v))

/-- Relative mode: `light2 / np.where(light1 == 0, -1, light1)`. -/
def relativeDifference (light1 light2 : Mat) : Mat :=
  zipWith2d Val.div light2 (whereZeroNegOne light1)

/-- Absolute mode: `light2 - light1`. -/
def absoluteDifference (light1 light2 : Mat) : Mat :=
  zipWith2d Val.sub light2 light1

/-- One iteration of the pairing loop of `get_difference_data`: the
difference grid together with the first date's coordinate vectors. -/
def diffPair (relative : Bool) (d1 d2 : Tile) : Tile :=
  { values := if relative then relativeDifference d1.values d2.values
              else absoluteDifference d1.values d2.values,
    lat := d1.lat, lon := d1.lon }

/-- The `zip` pairing loop of `get_difference_data`. -/
def differenceCore (relative : Bool) (l1 l2 : List Tile) : List Tile :=
  (l1.zip l2).map (fun p => diffPair relative p.1 p.2)

/-- The per-date processing of `get_difference_data`: load, then chunk when
`chunk_size > 1`, then normalize when requested. -/
def processForDate (date : String) (coords : ℚ × ℚ × ℚ × ℚ) (chunk_size : ℕ)
    (normalize : Bool) (files : List RawFile) : List Tile :=
  let l := load_data_for_date date coords files
  let l := if 1 < chunk_size then chunk_data l chunk_size else l
  if normalize then normalize_data l else l

/-- `get_difference_data`: process both dates independently, then pair the
two resulting tile lists positionally and difference each pair. -/
def get_difference_data (dateEarly dateLater : String) (coords : ℚ × ℚ × ℚ × ℚ)
    (relative : Bool) (chunk_size : ℕ) (normalize : Bool)
    (files : List RawFile) : List Tile :=
  differenceCore relative
    (processForDate dateEarly coords chunk_size normalize files)
    (processForDate dateLater coords chunk_size normalize files)

/-- The RasterTile alignment invariant: row count equals latitude length,
every row's length equals longitude length. -/
abbrev Aligned (t : Tile) : Prop :=
  t.values.length = t.lat.length ∧ ∀ row ∈ t.values, row.length = t.lon.length

/-- A well-formed raw file: rectangular grid aligned with its coordinate
vectors. -/
abbrev RawAligned (f : RawFile) : Prop :=
  f.light.length = f.lat.length ∧ ∀ row ∈ f.light, row.length = f.lon.length

/-- The default tile used with `List.getD`. -/
def Tile.empty : Tile := ⟨[], [], []⟩

/-- Cell `(r, c)` of a 2-D array (missing outside the array, only used
under bounds hypotheses). -/
def matCell (m : Mat) (r c : ℕ) : Val :=
  (m.getD r []).getD c none

/-- A rectangular `R × C` array. -/
def Rect (m : Mat) (R C : ℕ) : Prop :=
  m.length = R ∧ ∀ row ∈ m, row.length = C

/-- The rational sum of a row, missing entries counted as 0 (`np.nansum`
semantics, used to state what a finite IEEE sum equals). -/
def rowRatSum (row : List Val) : ℚ :=
  (row.map (fun v => v.getD 0)).sum

/-- The rational sum of a whole 2-D array. -/
def matRatSum (m : Mat) : ℚ :=
  (m.map rowRatSum).sum

/-- The rational grand total of a tile list. -/
def ratTotal (l : List Tile) : ℚ :=
  (l.map (fun t => matRatSum t.values)).sum

/-- No missing value in a row. -/
abbrev RowFinite (row : List Val) : Prop := ∀ v ∈ row, v ≠ none

/-- No missing value in a 2-D array. -/
abbrev MatFinite (m : Mat) : Prop := ∀ row ∈ m, RowFinite row

/-- No missing value anywhere in a tile list. -/
abbrev TileSetFinite (l : List Tile) : Prop := ∀ t ∈ l, MatFinite t.values

/-- Two 2-D arrays of exactly the same shape. -/
abbrev MatShapeEq (m1 m2 : Mat) : Prop :=
  m1.length = m2.length ∧
    ∀ i, i < m1.length → (m1.getD i []).length = (m2.getD i []).length

lemma Val.add_none (v : Val) : Val.add v none = none := by cases v <;> rfl

lemma Val.none_add (v : Val) : Val.add none v = none := by cases v <;> rfl

lemma Val.div_none (v : Val) : Val.div v none = none := by cases v <;> rfl

lemma Val.div_one (v : Val) : Val.div v (some 1) = v := by
  cases v <;> simp [Val.div]

lemma getD_map_lt {α β : Type} (f : α → β) (l : List α) (i : ℕ)
    (h : i < l.length) (d : β) (d0 : α) :
    (l.map f).getD i d = f (l.getD i d0) := by
  induction l generalizing i with
  | nil => simp at h
  | cons x xs ih =>
    cases i with
    | zero => simp
    | succ j =>
      simp only [List.map_cons, List.getD_cons_succ]
      exact ih j (by simpa using h)

lemma getD_zipWith_lt {α β γ : Type} (f : α → β → γ) (l1 : List α)
    (l2 : List β) (i : ℕ) (h1 : i < l1.length) (h2 : i < l2.length)
    (d : γ) (d1 : α) (d2 : β) :
    (List.zipWith f l1 l2).getD i d = f (l1.getD i d1) (l2.getD i d2) := by
  induction l1 generalizing l2 i with
  | nil => simp at h1
  | cons x xs ih =>
    cases l2 with
    | nil => simp at h2
    | cons y ys =>
      cases i with
      | zero => simp
      | succ j =>
        simp only [List.zipWith_cons_cons, List.getD_cons_succ]
        exact ih ys j (by simpa using h1) (by simpa using h2)

lemma length_differenceCore (relative : Bool) (l1 l2 : List Tile) :
    (differenceCore relative l1 l2).length = min l1.length l2.length := by
  simp [differenceCore]

lemma getD_differenceCore (relative : Bool) (l1 l2 : List Tile) (i : ℕ)
    (h1 : i < l1.length) (h2 : i < l2.length) (d : Tile) :
    (differenceCore relative l1 l2).getD i d
      = diffPair relative (l1.getD i d) (l2.getD i d) := by
  induction l1 generalizing l2 i with
  | nil => simp at h1
  | cons x xs ih =>
    cases l2 with
    | nil => simp at h2
    | cons y ys =>
      cases i with
      | zero => simp [differenceCore]
      | succ j =>
        simp only [differenceCore, List.zip_cons_cons, List.map_cons,
          List.getD_cons_succ]
        exact ih ys j (by simpa using h1) (by simpa using h2)

/-- C6: `get_difference_data` pairs the two independently processed tile
lists positionally; when their lengths differ the pairing silently
truncates to the shorter one, returning exactly
`min (len setA) (len setB)` difference tiles, the `i`-th of which pairs the
`i`-th tiles of the two sets; no error is raised (the function is total). -/
theorem claim6_theorem (dateEarly dateLater : String) (coords : ℚ × ℚ × ℚ × ℚ)
    (relative : Bool) (chunk_size : ℕ) (normalize : Bool) (files : List RawFile) :
    (get_difference_data dateEarly dateLater coords relative chunk_size normalize files).length
      = min (processForDate dateEarly coords chunk_size normalize files).length
            (processForDate dateLater coords chunk_size normalize files).length
    ∧ ∀ i, i < (processForDate dateEarly coords chunk_size normalize files).length →
        i < (processForDate dateLater coords chunk_size normalize files).length →
        (get_difference_data dateEarly dateLater coords relative chunk_size normalize files).getD i Tile.empty
          = diffPair relative
              ((processForDate dateEarly coords chunk_size normalize files).getD i Tile.empty)
              ((processForDate dateLater coords chunk_size normalize files).getD i Tile.empty) := by
  refine ⟨length_differenceCore .., fun i h1 h2 => ?_⟩
  exact getD_differenceCore relative _ _ i h1 h2 Tile.empty

/-- Witness for C6: two files survive for date "a" but only one for date
"b", so exactly `min 2 1 = 1` difference tile is returned, pairing the
first tiles of the two sets. -/
theorem claim6_witness :
    (get_difference_data "a" "b" (9, 23, 21, 39) false 1 false
        [⟨"a", [[1]], [10], [30]⟩, ⟨"a", [[2]], [11], [31]⟩, ⟨"b", [[4]], [10], [30]⟩]).length = 1
    ∧ (get_difference_data "a" "b" (9, 23, 21, 39) false 1 false
        [⟨"a", [[1]], [10], [30]⟩, ⟨"a", [[2]], [11], [31]⟩, ⟨"b", [[4]], [10], [30]⟩]).getD 0 Tile.empty
        = ⟨[[some 3]], [10], [30]⟩ := by
  have h := claim6_theorem "a" "b" (9, 23, 21, 39) false 1 false
    [⟨"a", [[1]], [10], [30]⟩, ⟨"a", [[2]], [11], [31]⟩, ⟨"b", [[4]], [10], [30]⟩]
  constructor
  · rw [h.1]; decide
  · rw [h.2 0 (by decide) (by decide)]; with_unfolding_all decide

/-- C7: in absolute mode (`relative = false`) each returned tile's grid is
the second date's values minus the first date's values elementwise, and
each returned tile carries the first (earlier) date's coordinate
vectors. -/
theorem claim7_theorem (dateEarly dateLater : String) (coords : ℚ × ℚ × ℚ × ℚ)
    (chunk_size : ℕ) (normalize : Bool) (files : List RawFile) (i : ℕ)
    (h1 : i < (processForDate dateEarly coords chunk_size normalize files).length)
    (h2 : i < (processForDate dateLater coords chunk_size normalize files).length) :
    ((get_difference_data dateEarly dateLater coords false chunk_size normalize files).getD i Tile.empty).lat
        = ((processForDate dateEarly coords chunk_size normalize files).getD i Tile.empty).lat
    ∧ ((get_difference_data dateEarly dateLater coords false chunk_size normalize files).getD i Tile.empty).lon
        = ((processForDate dateEarly coords chunk_size normalize files).getD i Tile.empty).lon
    ∧ ∀ r c,
        r < ((processForDate dateEarly coords chunk_size normalize files).getD i Tile.empty).values.length →
        r < ((processForDate dateLater coords chunk_size normalize files).getD i Tile.empty).values.length →
        c < (((processForDate dateEarly coords chunk_size normalize files).getD i Tile.empty).values.getD r []).length →
        c < (((processForDate dateLater coords chunk_size normalize files).getD i Tile.empty).values.getD r []).length →
        matCell ((get_difference_data dateEarly dateLater coords false chunk_size normalize files).getD i Tile.empty).values r c
          = Val.sub
              (matCell ((processForDate dateLater coords chunk_size normalize files).getD i Tile.empty).values r c)
              (matCell ((processForDate dateEarly coords chunk_size normalize files).getD i Tile.empty).values r c) := by
  rw [show get_difference_data dateEarly dateLater coords false chunk_size normalize files
      = differenceCore false (processForDate dateEarly coords chunk_size normalize files)
          (processForDate dateLater coords chunk_size normalize files) from rfl]
  rw [getD_differenceCore false _ _ i h1 h2 Tile.empty]
  refine ⟨rfl, rfl, fun r c hr1 hr2 hc1 hc2 => ?_⟩
  show matCell (absoluteDifference _ _) r c = _
  unfold absoluteDifference zipWith2d matCell
  rw [getD_zipWith_lt (List.zipWith Val.sub) _ _ r (by simpa using hr2) (by simpa using hr1) [] [] []]
  rw [getD_zipWith_lt Val.sub _ _ c (by simpa using hc2) (by simpa using hc1) none none none]

/-- Witness for C7: a concrete two-date instance where the difference grid
is later minus earlier and the coordinates come from the earlier date. -/
theorem claim7_witness :
    ((get_difference_data "a" "b" (9, 23, 21, 39) false 1 false
        [⟨"a", [[1, 2]], [10], [30, 31]⟩, ⟨"b", [[5, 3]], [10], [30, 31]⟩]).getD 0 Tile.empty).lat = [10]
    ∧ matCell ((get_difference_data "a" "b" (9, 23, 21, 39) false 1 false
        [⟨"a", [[1, 2]], [10], [30, 31]⟩, ⟨"b", [[5, 3]], [10], [30, 31]⟩]).getD 0 Tile.empty).values 0 1
        = Val.sub (some 3) (some 2) := by
  have h := claim7_theorem "a" "b" (9, 23, 21, 39) 1 false
    [⟨"a", [[1, 2]], [10], [30, 31]⟩, ⟨"b", [[5, 3]], [10], [30, 31]⟩] 0
    (by decide) (by decide)
  refine ⟨h.1.trans (by decide), ?_⟩
  rw [h.2.2 0 1 (by decide) (by decide) (by decide) (by decide)]
  with_unfolding_all decide

lemma matCell_relativeDifference (m1 m2 : Mat) (r c : ℕ)
    (h1 : r < m1.length) (h2 : r < m2.length)
    (hc1 : c < (m1.getD r []).length) (hc2 : c < (m2.getD r []).length) :
    matCell (relativeDifference m1 m2) r c
      = Val.div (matCell m2 r c)
          (if matCell m1 r c = some 0 then some (-1) else matCell m1 r c) := by
  unfold relativeDifference whereZeroNegOne zipWith2d matCell
  rw [getD_zipWith_lt (List.zipWith Val.div) _ _ r h2 (by simpa using h1) [] [] []]
  rw [getD_map_lt _ _ r h1 [] []]
  rw [getD_zipWith_lt Val.div _ _ c hc2 (by simpa using hc1) none none none]
  rw [getD_map_lt _ _ c hc1 none none]

/-- Amended C4: in relative mode, for a cell with finite nonnegative earlier
value `a` and later value `b`: if `a = 0` the denominator becomes the
sentinel −1 and the result is `-b` — strictly negative exactly when `b` is
strictly positive (it is 0, not negative, when `b = 0`) — while if `a ≠ 0`
the result is the true proportion `b / a`, which is never negative. -/
theorem claim4_theorem (m1 m2 : Mat) (r c : ℕ) (a b : ℚ)
    (h1 : r < m1.length) (h2 : r < m2.length)
    (hc1 : c < (m1.getD r []).length) (hc2 : c < (m2.getD r []).length)
    (ha : matCell m1 r c = some a) (hb : matCell m2 r c = some b)
    (ha0 : 0 ≤ a) (hb0 : 0 ≤ b) :
    (a = 0 → matCell (relativeDifference m1 m2) r c = some (-b)
        ∧ (Val.isNeg (matCell (relativeDifference m1 m2) r c) = true ↔ 0 < b))
    ∧ (a ≠ 0 → matCell (relativeDifference m1 m2) r c = some (b / a)
        ∧ Val.isNeg (matCell (relativeDifference m1 m2) r c) = false) := by
  rw [matCell_relativeDifference m1 m2 r c h1 h2 hc1 hc2, ha, hb]
  constructor
  · intro h0
    subst h0
    have hcell : Val.div (some b) (if (some (0:ℚ) : Val) = some 0 then some (-1) else some 0)
        = some (-b) := by
      simp [Val.div, div_neg, div_one]
    refine ⟨hcell, ?_⟩
    rw [hcell]
    simp [Val.isNeg]
  · intro hne
    have ha' : 0 < a := lt_of_le_of_ne ha0 (Ne.symm hne)
    have hcell : Val.div (some b) (if (some a : Val) = some 0 then some (-1) else some a)
        = some (b / a) := by
      simp [Val.div, Option.some.injEq, hne]
    refine ⟨hcell, ?_⟩
    rw [hcell]
    simp only [Val.isNeg, decide_eq_false_iff_not, not_lt]
    exact div_nonneg hb0 ha0

/-- Counterexample to C4 as stated: with earlier value 0 and later value 0
the sentinel path produces `0 / (-1) = 0`, which is not negative, so the
claim that "this sentinel result is negative" is false at this input. -/
theorem claim4_counterexample :
    relativeDifference [[some 0]] [[some 0]] = [[some 0]]
    ∧ Val.isNeg (matCell (relativeDifference [[some 0]] [[some 0]]) 0 0) = false := by
  with_unfolding_all decide

/-- Witness for C4: the spec's own two examples, derived from the amended
theorem: earlier 0 / later 5 gives −5 (negative), earlier 2 / later 6
gives the ratio 3. -/
theorem claim4_witness :
    (matCell (relativeDifference [[some 0]] [[some 5]]) 0 0 = some (-5)
      ∧ Val.isNeg (matCell (relativeDifference [[some 0]] [[some 5]]) 0 0) = true)
    ∧ (matCell (relativeDifference [[some 2]] [[some 6]]) 0 0 = some 3
      ∧ Val.isNeg (matCell (relativeDifference [[some 2]] [[some 6]]) 0 0) = false) := by
  have h5 := claim4_theorem [[some 0]] [[some 5]] 0 0 0 5
    (by decide) (by decide) (by decide) (by decide) (by decide) (by decide)
    (by norm_num) (by norm_num)
  have h3 := claim4_theorem [[some 2]] [[some 6]] 0 0 2 6
    (by decide) (by decide) (by decide) (by decide) (by decide) (by decide)
    (by norm_num) (by norm_num)
  refine ⟨⟨(h5.1 rfl).1, (h5.1 rfl).2.mpr (by norm_num)⟩,
          ⟨((h3.2 (by norm_num)).1).trans (by norm_num), (h3.2 (by norm_num)).2⟩⟩

/-- C10: in relative mode, a cell whose finite nonnegative earlier and
later values are both 0 yields 0 (0 divided by the −1 sentinel), not a
negative sentinel result; and the result is strictly negative exactly when
the earlier value is 0 and the later value is strictly positive. -/
theorem claim10_theorem (m1 m2 : Mat) (r c : ℕ) (a b : ℚ)
    (h1 : r < m1.length) (h2 : r < m2.length)
    (hc1 : c < (m1.getD r []).length) (hc2 : c < (m2.getD r []).length)
    (ha : matCell m1 r c = some a) (hb : matCell m2 r c = some b)
    (ha0 : 0 ≤ a) (hb0 : 0 ≤ b) :
    (a = 0 → b = 0 → matCell (relativeDifference m1 m2) r c = some 0)
    ∧ (Val.isNeg (matCell (relativeDifference m1 m2) r c) = true ↔ (a = 0 ∧ 0 < b)) := by
  rw [matCell_relativeDifference m1 m2 r c h1 h2 hc1 hc2, ha, hb]
  by_cases h0 : a = 0
  · subst h0
    have hcell : Val.div (some b) (if (some (0:ℚ) : Val) = some 0 then some (-1) else some 0)
        = some (-b) := by
      simp [Val.div, div_neg, div_one]
    rw [hcell]
    refine ⟨fun _ hb' => by rw [hb']; norm_num, ?_⟩
    simp [Val.isNeg, neg_lt_zero]
  · have hcell : Val.div (some b) (if (some a : Val) = some 0 then some (-1) else some a)
        = some (b / a) := by
      simp [Val.div, Option.some.injEq, h0]
    rw [hcell]
    refine ⟨fun h => absurd h h0, ?_⟩
    simp only [Val.isNeg, decide_eq_true_eq]
    constructor
    · intro hlt
      exact absurd hlt (not_lt.mpr (div_nonneg hb0 ha0))
    · rintro ⟨h, _⟩
      exact absurd h h0

/-- Witness for C10: both values 0 gives result 0 and not negative;
earlier 0 with later 5 gives a strictly negative result. -/
theorem claim10_witness :
    (matCell (relativeDifference [[some 0]] [[some 0]]) 0 0 = some 0
      ∧ Val.isNeg (matCell (relativeDifference [[some 0]] [[some 0]]) 0 0) = false)
    ∧ Val.isNeg (matCell (relativeDifference [[some 0]] [[some 5]]) 0 0) = true := by
  have h00 := claim10_theorem [[some 0]] [[some 0]] 0 0 0 0
    (by decide) (by decide) (by decide) (by decide) (by decide) (by decide)
    le_rfl le_rfl
  have h05 := claim10_theorem [[some 0]] [[some 5]] 0 0 0 5
    (by decide) (by decide) (by decide) (by decide) (by decide) (by decide)
    le_rfl (by norm_num)
  refine ⟨⟨h00.1 rfl rfl, ?_⟩, h05.2.mpr ⟨rfl, by norm_num⟩⟩
  rw [h00.1 rfl rfl]
  rfl

lemma getD_take_lt {α : Type} (l : List α) (k i : ℕ) (h : i < k) (d : α) :
    (l.take k).getD i d = l.getD i d := by
  induction l generalizing k i with
  | nil => simp
  | cons x xs ih =>
    cases k with
    | zero => omega
    | succ k =>
      cases i with
      | zero => simp
      | succ j => simpa using ih k j (by omega)

lemma getD_range (k i : ℕ) (h : i < k) (d : ℕ) : (List.range k).getD i d = i := by
  rw [List.getD_eq_getElem _ _ (by simpa using h), List.getElem_range]

lemma foldl_congr_mem {α β : Type} (l : List α) (f g : β → α → β) (acc : β)
    (h : ∀ b, ∀ x ∈ l, f b x = g b x) : l.foldl f acc = l.foldl g acc := by
  induction l generalizing acc with
  | nil => rfl
  | cons x xs ih =>
    simp only [List.foldl_cons]
    rw [h acc x (List.mem_cons_self x xs)]
    exact ih _ (fun b y hy => h b y (List.mem_cons_of_mem x hy))

lemma trim_eq_zero_iff (R n : ℕ) (hn : 1 ≤ n) : R - R % n = 0 ↔ R < n := by
  have h1 : R % n + n * (R / n) = R := Nat.mod_add_div R n
  have h2 : R - R % n = n * (R / n) := by omega
  rw [h2]
  constructor
  · intro h
    have h0 : R / n = 0 := by
      rcases Nat.mul_eq_zero.mp h with h' | h'
      · omega
      · exact h'
    have hm : R % n < n := Nat.mod_lt _ (by omega)
    omega
  · intro h
    have : R / n = 0 := Nat.div_eq_of_lt h
    simp [this]

lemma trim_eq_mul_div (R n : ℕ) : R - R % n = n * (R / n) := by
  have h1 : R % n + n * (R / n) = R := Nat.mod_add_div R n
  omega

lemma blockMean_take (m : Mat) (n i j ny_trim nx_trim : ℕ)
    (htr : ny_trim ≤ m.length)
    (hrow : ∀ a, a < n → i * n + a < ny_trim)
    (hcol : ∀ b, b < n → j * n + b < nx_trim) :
    blockMean ((m.take ny_trim).map (fun row => row.take nx_trim)) n i j
      = blockMean m n i j := by
  unfold blockMean
  congr 1
  apply foldl_congr_mem
  intro acc a ha
  apply foldl_congr_mem
  intro acc2 b hb
  have ha' : a < n := List.mem_range.mp ha
  have hb' : b < n := List.mem_range.mp hb
  have hia : i * n + a < ny_trim := hrow a ha'
  have hlen : i * n + a < (m.take ny_trim).length := by
    simp only [List.length_take]
    omega
  congr 1
  rw [getD_map_lt _ _ _ hlen [] []]
  rw [getD_take_lt m ny_trim (i * n + a) hia []]
  exact getD_take_lt _ nx_trim (j * n + b) (hcol b hb') none

lemma block_average_none_iff (m : Mat) (n R C : ℕ) (hn : 1 ≤ n)
    (hrect : Rect m R C) :
    (block_average m n = none ↔ R < n ∨ C < n) := by
  obtain ⟨hR, hC⟩ := hrect
  rcases m with _ | ⟨row, rest⟩
  · subst hR
    have hba : block_average ([] : Mat) n = none := by simp [block_average]
    rw [hba]
    constructor
    · intro _; left; simp only [List.length_nil]; omega
    · intro _; rfl
  · have hrow : row.length = C := hC row (List.mem_cons_self row rest)
    simp only [block_average, List.headD_cons]
    rw [hrow]
    rw [show (row :: rest).length = R from hR]
    by_cases hcond : R - R % n = 0 ∨ C - C % n = 0
    · rw [if_pos hcond]
      simp only [true_iff]
      rcases hcond with h | h
      · exact Or.inl ((trim_eq_zero_iff R n hn).mp h)
      · exact Or.inr ((trim_eq_zero_iff C n hn).mp h)
    · rw [if_neg hcond]
      simp only [reduceCtorEq, false_iff]
      push_neg at hcond
      intro hlt
      rcases hlt with h | h
      · exact hcond.1 ((trim_eq_zero_iff R n hn).mpr h)
      · exact hcond.2 ((trim_eq_zero_iff C n hn).mpr h)

lemma block_average_some (m : Mat) (n R C : ℕ) (hn : 1 ≤ n)
    (hrect : Rect m R C) (out : Mat) (hout : block_average m n = some out) :
    out.length = R / n ∧ (∀ row ∈ out, row.length = C / n)
    ∧ ∀ i j, i < R / n → j < C / n → matCell out i j = blockMean m n i j := by
  obtain ⟨hR, hC⟩ := hrect
  rcases m with _ | ⟨row0, rest⟩
  · exfalso
    simp [block_average] at hout
  · have hrow : row0.length = C := hC row0 (List.mem_cons_self row0 rest)
    have hlenm : (row0 :: rest).length = R := hR
    simp only [block_average, List.headD_cons] at hout
    rw [hrow, hlenm] at hout
    by_cases hcond : R - R % n = 0 ∨ C - C % n = 0
    · rw [if_pos hcond] at hout
      exact absurd hout (by simp)
    · rw [if_neg hcond] at hout
      have hout' := Option.some.inj hout
      subst hout'
      have hnyq : (R - R % n) / n = R / n := by
        rw [trim_eq_mul_div R n]
        exact Nat.mul_div_cancel_left _ (by omega)
      have hnxq : (C - C % n) / n = C / n := by
        rw [trim_eq_mul_div C n]
        exact Nat.mul_div_cancel_left _ (by omega)
      refine ⟨by simp [hnyq], ?_, ?_⟩
      · intro row hrowmem
        rcases List.mem_map.mp hrowmem with ⟨i, _, hi⟩
        rw [← hi]
        simp [hnxq]
      · intro i j hi hj
        have hi' : i < (R - R % n) / n := by rw [hnyq]; exact hi
        have hj' : j < (C - C % n) / n := by rw [hnxq]; exact hj
        unfold matCell
        rw [getD_map_lt _ _ i (by simpa using hi') [] 0]
        rw [getD_range _ i hi' 0]
        rw [getD_map_lt _ _ j (by simpa using hj') none 0]
        rw [getD_range _ j hj' 0]
        apply blockMean_take
        · rw [hlenm]; omega
        · intro a ha
          rw [trim_eq_mul_div R n]
          have h1 : i + 1 ≤ R / n := hi
          calc i * n + a < i * n + n := by omega
            _ = (i + 1) * n := by ring
            _ ≤ (R / n) * n := Nat.mul_le_mul_right n h1
            _ = n * (R / n) := Nat.mul_comm _ _
        · intro b hb
          rw [trim_eq_mul_div C n]
          have h1 : j + 1 ≤ C / n := hj
          calc j * n + b < j * n + n := by omega
            _ = (j + 1) * n := by ring
            _ ≤ (C / n) * n := Nat.mul_le_mul_right n h1
            _ = n * (C / n) := Nat.mul_comm _ _

lemma get?_append_len {α : Type} (a : List α) (x : α) (b : List α) :
    (a ++ x :: b).get? a.length = some x := by
  induction a with
  | nil => rfl
  | cons y ys ih => simpa using ih

lemma set_append_len {α : Type} (a : List α) (x : α) (b : List α) (v : α) :
    (a ++ x :: b).set a.length v = a ++ v :: b := by
  induction a with
  | nil => rfl
  | cons y ys ih => simp [List.set, ih]

lemma eraseIdx_append_len {α : Type} (a : List α) (x : α) (b : List α) :
    (a ++ x :: b).eraseIdx a.length = a ++ b := by
  induction a with
  | nil => rfl
  | cons y ys ih => simp [List.eraseIdx, ih]

lemma chunkGo_append (n : ℕ) (a : List Tile) :
    ∀ b : List Tile, chunkGo n (a ++ b) a.length = a.filterMap (chunkTile n) ++ b := by
  induction a using List.reverseRecOn with
  | nil => intro b; simp [chunkGo]
  | append_singleton a' x ih =>
    intro b
    rw [List.append_assoc, List.singleton_append,
      show (a' ++ [x]).length = a'.length + 1 by simp]
    have step : chunkGo n (a' ++ x :: b) (a'.length + 1)
        = match (a' ++ x :: b).get? a'.length with
          | none => chunkGo n (a' ++ x :: b) a'.length
          | some t => match chunkTile n t with
            | some tc => chunkGo n ((a' ++ x :: b).set a'.length tc) a'.length
            | none => chunkGo n ((a' ++ x :: b).eraseIdx a'.length) a'.length := rfl
    rw [step, get?_append_len]
    cases hx : chunkTile n x with
    | some tc =>
      simp only [hx]
      rw [set_append_len, ih (tc :: b)]
      simp [List.filterMap_append, List.filterMap, hx]
    | none =>
      simp only [hx]
      rw [eraseIdx_append_len, ih b]
      simp [List.filterMap_append, List.filterMap, hx]

lemma chunk_data_eq_filterMap (l : List Tile) (n : ℕ) :
    chunk_data l n = l.filterMap (chunkTile n) := by
  have h := chunkGo_append n l []
  simpa [chunk_data] using h

/-- C5: for a rectangular `R × C` tile and factor `n ≥ 1`, `block_average`
raises (so `chunk_data` drops the tile) exactly when `R < n` or `C < n`;
otherwise the output grid has shape `(R / n, C / n)` and each cell `(i, j)`
is the arithmetic mean (sum divided by `n²`, in IEEE arithmetic) of the
`n×n` block of the original grid with top-left corner `(i*n, j*n)`; and the
`chunk_data` loop equals a per-tile `filterMap`, so a dropped tile never
aborts processing of the other tiles in the set. -/
theorem claim5_theorem (n R C : ℕ) (t : Tile) (l : List Tile) (hn : 1 ≤ n)
    (hrect : Rect t.values R C) :
    (chunkTile n t = none ↔ R < n ∨ C < n)
    ∧ (∀ tc, chunkTile n t = some tc →
        tc.values.length = R / n ∧ (∀ row ∈ tc.values, row.length = C / n)
        ∧ ∀ i j, i < R / n → j < C / n →
            matCell tc.values i j = blockMean t.values n i j)
    ∧ chunk_data l n = l.filterMap (chunkTile n) := by
  refine ⟨?_, ?_, chunk_data_eq_filterMap l n⟩
  · rw [← block_average_none_iff t.values n R C hn hrect]
    unfold chunkTile
    cases h : block_average t.values n <;> simp [h]
  · intro tc htc
    unfold chunkTile at htc
    cases h : block_average t.values n with
    | none => rw [h] at htc; exact absurd htc (by simp)
    | some out =>
      rw [h] at htc
      have htc' := Option.some.inj htc
      have hvals : tc.values = out := by rw [← htc']
      rw [hvals]
      exact block_average_some t.values n R C hn hrect out h

/-- Witness for C5: a 1×1 tile is dropped for factor 2 (and does not abort
the set), while a 2×2 tile averages to the single mean value 4. -/
theorem claim5_witness :
    chunkTile 2 ⟨[[some 1]], [10], [22]⟩ = none
    ∧ chunk_data [⟨[[some 1]], [10], [22]⟩,
        ⟨[[some 1, some 3], [some 5, some 7]], [10, 11], [22, 23]⟩] 2
        = [⟨[[some 4]], [10], [22]⟩] := by
  have h := claim5_theorem 2 1 1 ⟨[[some 1]], [10], [22]⟩
    [⟨[[some 1]], [10], [22]⟩, ⟨[[some 1, some 3], [some 5, some 7]], [10, 11], [22, 23]⟩]
    (by decide) (by constructor <;> simp)
  refine ⟨h.1.mpr (Or.inl (by decide)), ?_⟩
  rw [h.2.2]
  with_unfolding_all decide

lemma foldl_add_finite :
    ∀ (row : List Val), RowFinite row →
      ∀ a : ℚ, row.foldl Val.add (some a) = some (a + rowRatSum row) := by
  intro row
  induction row with
  | nil => intro _ a; simp [rowRatSum]
  | cons v vs ih =>
    intro hfin a
    obtain ⟨q, hq⟩ : ∃ q, v = some q := by
      cases v with
      | none => exact absurd rfl (hfin none (List.mem_cons_self _ _))
      | some q => exact ⟨q, rfl⟩
    subst hq
    simp only [List.foldl_cons]
    rw [show Val.add (some a) (some q) = some (a + q) from rfl]
    rw [ih (fun w hw => hfin w (List.mem_cons_of_mem _ hw)) (a + q)]
    simp only [rowRatSum, List.map_cons, List.sum_cons, Option.getD_some]
    congr 1
    ring

lemma foldl_mat_finite :
    ∀ (m : Mat), MatFinite m →
      ∀ a : ℚ, m.foldl (fun acc row => row.foldl Val.add acc) (some a)
        = some (a + matRatSum m) := by
  intro m
  induction m with
  | nil => intro _ a; simp [matRatSum]
  | cons row rest ih =>
    intro hfin a
    simp only [List.foldl_cons]
    rw [foldl_add_finite row (hfin row (List.mem_cons_self _ _)) a]
    rw [ih (fun r hr => hfin r (List.mem_cons_of_mem _ hr)) (a + rowRatSum row)]
    simp only [matRatSum, List.map_cons, List.sum_cons]
    congr 1
    ring

lemma matSum_finite (m : Mat) (h : MatFinite m) : matSum m = some (matRatSum m) := by
  simpa using foldl_mat_finite m h 0

lemma sumLights_finite :
    ∀ (l : List Tile), TileSetFinite l →
      ∀ a : ℚ, l.foldl (fun acc t => Val.add acc (matSum t.values)) (some a)
        = some (a + ratTotal l) := by
  intro l
  induction l with
  | nil => intro _ a; simp [ratTotal]
  | cons t rest ih =>
    intro hfin a
    simp only [List.foldl_cons]
    rw [matSum_finite t.values (hfin t (List.mem_cons_self _ _))]
    rw [show Val.add (some a) (some (matRatSum t.values))
        = some (a + matRatSum t.values) from rfl]
    rw [ih (fun u hu => hfin u (List.mem_cons_of_mem _ hu)) _]
    simp only [ratTotal, List.map_cons, List.sum_cons]
    congr 1
    ring

lemma sumLights_eq (l : List Tile) (h : TileSetFinite l) :
    sumLights l = some (ratTotal l) := by
  simpa [sumLights] using sumLights_finite l h 0

lemma foldl_add_from_none (row : List Val) : row.foldl Val.add none = none := by
  induction row with
  | nil => rfl
  | cons v vs ih => simp only [List.foldl_cons, Val.none_add]; exact ih

lemma foldl_add_none_mem :
    ∀ (row : List Val), none ∈ row → ∀ acc : Val, row.foldl Val.add acc = none := by
  intro row
  induction row with
  | nil => intro h; simp at h
  | cons v vs ih =>
    intro hmem acc
    simp only [List.foldl_cons]
    rcases List.mem_cons.mp hmem with h1 | h2
    · rw [← h1, Val.add_none]
      exact foldl_add_from_none vs
    · exact ih h2 _

lemma foldl_mat_from_none (m : Mat) :
    m.foldl (fun acc row => row.foldl Val.add acc) none = none := by
  induction m with
  | nil => rfl
  | cons row rest ih =>
    simp only [List.foldl_cons, foldl_add_from_none]
    exact ih

lemma matSum_none (m : Mat) (h : ∃ row ∈ m, none ∈ row) : matSum m = none := by
  unfold matSum
  obtain ⟨row, hrow, hmem⟩ := h
  rcases List.append_of_mem hrow with ⟨pre, post, rfl⟩
  rw [List.foldl_append, List.foldl_cons, foldl_add_none_mem row hmem _]
  exact foldl_mat_from_none post

lemma foldl_tiles_from_none (l : List Tile) :
    l.foldl (fun acc t => Val.add acc (matSum t.values)) none = none := by
  induction l with
  | nil => rfl
  | cons t rest ih =>
    simp only [List.foldl_cons, Val.none_add]
    exact ih

lemma sumLights_none (l : List Tile)
    (h : ∃ t ∈ l, ∃ row ∈ t.values, none ∈ row) : sumLights l = none := by
  unfold sumLights
  obtain ⟨t, ht, hrows⟩ := h
  rcases List.append_of_mem ht with ⟨pre, post, rfl⟩
  rw [List.foldl_append, List.foldl_cons, matSum_none t.values hrows, Val.add_none]
  exact foldl_tiles_from_none post

/-- Amended C1: `normalize_data` totals with `np.sum`, whose missing values
propagate: a tile list containing any missing value gets a missing grand
total and every output value (of every tile) becomes missing; for a tile
list with no missing values the total is the rational grand sum, and —
when that total is nonzero — every output value is the input value divided
by the total (a proportion of total). -/
theorem claim1_theorem (l : List Tile) :
    ((∃ t ∈ l, ∃ row ∈ t.values, none ∈ row) →
        sumLights l = none
        ∧ ∀ t ∈ normalize_data l, ∀ row ∈ t.values, ∀ v ∈ row, v = none)
    ∧ (TileSetFinite l →
        sumLights l = some (ratTotal l)
        ∧ (ratTotal l ≠ 0 →
            normalize_data l = l.map (fun t =>
              ⟨t.values.map (fun row => row.map (fun v => some (v.getD 0 / ratTotal l))),
               t.lat, t.lon⟩))) := by
  constructor
  · intro hmem
    have hsum := sumLights_none l hmem
    refine ⟨hsum, ?_⟩
    intro t2 ht2 row2 hrow2 v2 hv2
    simp only [normalize_data, hsum] at ht2
    rcases List.mem_map.mp ht2 with ⟨t, _, rfl⟩
    simp only at hrow2
    rcases List.mem_map.mp hrow2 with ⟨row, _, rfl⟩
    rcases List.mem_map.mp hv2 with ⟨v, _, rfl⟩
    exact Val.div_none v
  · intro hfin
    have hsum := sumLights_eq l hfin
    refine ⟨hsum, fun hne => ?_⟩
    simp only [normalize_data, hsum]
    apply List.map_congr_left
    intro t ht
    congr 1
    apply List.map_congr_left
    intro row hrow
    apply List.map_congr_left
    intro v hv
    obtain ⟨q, rfl⟩ : ∃ q, v = some q := by
      cases v with
      | none => exact absurd rfl (hfin t ht row hrow none hv)
      | some q => exact ⟨q, rfl⟩
    simp [Val.div, hne]

/-- Counterexample to C1 as stated: a tile set containing one missing value
has `np.sum` total NaN, so even its finite value 1 is normalized to NaN,
whereas the spec's missing-excluded total (1) would keep it at 1 — shown by
the spec-model refinement definition. -/
theorem claim1_counterexample :
    normalize_data [⟨[[none, some 1]], [10], [22, 23]⟩]
        = [⟨[[none, none]], [10], [22, 23]⟩]
    ∧ normalize_data_specModel [⟨[[none, some 1]], [10], [22, 23]⟩]
        = [⟨[[none, some 1]], [10], [22, 23]⟩] := by
  with_unfolding_all decide

/-- Witness for C1 (amended): a fully finite tile list with total 4 is
normalized to quarters. -/
theorem claim1_witness :
    sumLights [⟨[[some 1, some 3]], [10], [22, 23]⟩] = some 4
    ∧ normalize_data [⟨[[some 1, some 3]], [10], [22, 23]⟩]
        = [⟨[[some (1/4), some (3/4)]], [10], [22, 23]⟩] := by
  have h := (claim1_theorem [⟨[[some 1, some 3]], [10], [22, 23]⟩]).2 (by decide)
  constructor
  · rw [h.1]; with_unfolding_all decide
  · rw [h.2 (by with_unfolding_all decide)]
    with_unfolding_all decide

lemma rowRatSum_div (row : List Val) (σ : ℚ) (hfin : RowFinite row) (hσ : σ ≠ 0) :
    rowRatSum (row.map (fun v => Val.div v (some σ))) = rowRatSum row / σ := by
  induction row with
  | nil => simp [rowRatSum]
  | cons v vs ih =>
    obtain ⟨q, rfl⟩ : ∃ q, v = some q := by
      cases v with
      | none => exact absurd rfl (hfin none (List.mem_cons_self _ _))
      | some q => exact ⟨q, rfl⟩
    simp only [rowRatSum, List.map_cons, List.sum_cons] at *
    rw [show Val.div (some q) (some σ) = some (q / σ) by simp [Val.div, hσ]]
    simp only [Option.getD_some]
    rw [ih (fun w hw => hfin w (List.mem_cons_of_mem _ hw))]
    rw [add_div]

lemma matRatSum_div (m : Mat) (σ : ℚ) (hfin : MatFinite m) (hσ : σ ≠ 0) :
    matRatSum (m.map (fun row => row.map (fun v => Val.div v (some σ))))
      = matRatSum m / σ := by
  induction m with
  | nil => simp [matRatSum]
  | cons row rest ih =>
    simp only [matRatSum, List.map_cons, List.sum_cons] at *
    rw [rowRatSum_div row σ (hfin row (List.mem_cons_self _ _)) hσ]
    rw [ih (fun r hr => hfin r (List.mem_cons_of_mem _ hr))]
    rw [add_div]

lemma ratTotal_map_div (l : List Tile) (σ : ℚ) (hfin : TileSetFinite l) (hσ : σ ≠ 0) :
    ratTotal (l.map (fun t =>
        (⟨t.values.map (fun row => row.map (fun v => Val.div v (some σ))),
          t.lat, t.lon⟩ : Tile)))
      = ratTotal l / σ := by
  induction l with
  | nil => simp [ratTotal]
  | cons t rest ih =>
    simp only [ratTotal, List.map_cons, List.sum_cons] at *
    rw [matRatSum_div t.values σ (hfin t (List.mem_cons_self _ _)) hσ]
    rw [ih (fun u hu => hfin u (List.mem_cons_of_mem _ hu))]
    rw [add_div]

lemma ratTotal_normalize (l : List Tile) (σ : ℚ) (hfin : TileSetFinite l)
    (hsum : sumLights l = some σ) (hσ : σ ≠ 0) :
    ratTotal (normalize_data l) = ratTotal l / σ := by
  simp only [normalize_data, hsum]
  exact ratTotal_map_div l σ hfin hσ

lemma normalize_data_finite (l : List Tile) (σ : ℚ) (hfin : TileSetFinite l)
    (hsum : sumLights l = some σ) (hσ : σ ≠ 0) :
    TileSetFinite (normalize_data l) := by
  intro t2 ht2 row2 hrow2 v2 hv2
  simp only [normalize_data, hsum] at ht2
  rcases List.mem_map.mp ht2 with ⟨t, ht, rfl⟩
  simp only at hrow2
  rcases List.mem_map.mp hrow2 with ⟨row, hrow, rfl⟩
  rcases List.mem_map.mp hv2 with ⟨v, hv, rfl⟩
  obtain ⟨q, rfl⟩ : ∃ q, v = some q := by
    cases v with
    | none => exact absurd rfl (hfin t ht row hrow none hv)
    | some q => exact ⟨q, rfl⟩
  simp [Val.div, hσ]

lemma normalize_by_one (l : List Tile) (h : sumLights l = some 1) :
    normalize_data l = l := by
  simp only [normalize_data, h]
  have : ∀ t : Tile,
      (⟨t.values.map (fun row => row.map (fun v => Val.div v (some 1))),
        t.lat, t.lon⟩ : Tile) = t := by
    intro t
    have hv : t.values.map (fun row => row.map (fun v => Val.div v (some 1)))
        = t.values := by
      simp [Val.div_one]
    rw [hv]
  calc l.map (fun t => (⟨t.values.map (fun row => row.map (fun v => Val.div v (some 1))),
        t.lat, t.lon⟩ : Tile))
      = l.map id := List.map_congr_left (fun t _ => this t)
    _ = l := List.map_id l

/-- C8: for a non-degenerate tile list (no missing values, finite nonzero
total) the grand total of `normalize_data`'s output is exactly 1, and
normalizing is idempotent on its own output (a list whose total is already
1 is returned unchanged by a second `normalize_data`). -/
theorem claim8_theorem (l : List Tile) (σ : ℚ) (hfin : TileSetFinite l)
    (hsum : sumLights l = some σ) (hσ : σ ≠ 0) :
    sumLights (normalize_data l) = some 1
    ∧ normalize_data (normalize_data l) = normalize_data l := by
  have hσval : σ = ratTotal l := by
    have := sumLights_eq l hfin
    rw [hsum] at this
    exact Option.some.inj this
  have hfin2 := normalize_data_finite l σ hfin hsum hσ
  have hsum2 : sumLights (normalize_data l) = some 1 := by
    rw [sumLights_eq _ hfin2, ratTotal_normalize l σ hfin hsum hσ, ← hσval,
      div_self hσ]
  exact ⟨hsum2, normalize_by_one _ hsum2⟩

/-- Witness for C8: the total-4 tile list normalizes to total 1, and a
second normalization is the identity on that output. -/
theorem claim8_witness :
    sumLights (normalize_data [⟨[[some 1, some 3]], [10], [22, 23]⟩]) = some 1
    ∧ normalize_data (normalize_data [⟨[[some 1, some 3]], [10], [22, 23]⟩])
        = normalize_data [⟨[[some 1, some 3]], [10], [22, 23]⟩] :=
  claim8_theorem [⟨[[some 1, some 3]], [10], [22, 23]⟩] 4 (by decide)
    (by with_unfolding_all decide) (by norm_num)

lemma keyLE_iff (a b : Tile) :
    keyLE a b = true ↔
      ((tileKey a).1 < (tileKey b).1
        ∨ ((tileKey a).1 = (tileKey b).1 ∧ (tileKey a).2 ≤ (tileKey b).2)) := by
  simp [keyLE, Bool.or_eq_true, Bool.and_eq_true, decide_eq_true_eq]

lemma keyLE_total (a b : Tile) : keyLE a b = true ∨ keyLE b a = true := by
  rw [keyLE_iff, keyLE_iff]
  rcases lt_trichotomy (tileKey a).1 (tileKey b).1 with h | h | h
  · exact Or.inl (Or.inl h)
  · rcases le_total (tileKey a).2 (tileKey b).2 with h2 | h2
    · exact Or.inl (Or.inr ⟨h, h2⟩)
    · exact Or.inr (Or.inr ⟨h.symm, h2⟩)
  · exact Or.inr (Or.inl h)

lemma keyLE_trans (a b c : Tile) (h1 : keyLE a b = true) (h2 : keyLE b c = true) :
    keyLE a c = true := by
  rw [keyLE_iff] at h1 h2 ⊢
  rcases h1 with h1 | ⟨h1e, h1le⟩ <;> rcases h2 with h2 | ⟨h2e, h2le⟩
  · exact Or.inl (lt_trans h1 h2)
  · exact Or.inl (lt_of_lt_of_le h1 (le_of_eq h2e))
  · exact Or.inl (lt_of_le_of_lt (le_of_eq h1e) h2)
  · exact Or.inr ⟨h1e.trans h2e, le_trans h1le h2le⟩

lemma keyLE_antisymm_keys (a b : Tile) (h1 : keyLE a b = true)
    (h2 : keyLE b a = true) : tileKey a = tileKey b := by
  rw [keyLE_iff] at h1 h2
  rcases h1 with h1 | ⟨h1e, h1le⟩ <;> rcases h2 with h2 | ⟨h2e, h2le⟩
  · exact absurd h2 (lt_asymm h1)
  · exfalso; rw [h2e] at h1; exact lt_irrefl _ h1
  · exfalso; rw [h1e] at h2; exact lt_irrefl _ h2
  · exact Prod.ext h1e (le_antisymm h1le h2le)

lemma insertTile_perm (x : Tile) (l : List Tile) :
    (insertTile x l).Perm (x :: l) := by
  induction l with
  | nil => exact List.Perm.refl _
  | cons y ys ih =>
    unfold insertTile
    by_cases h : keyLE x y = true
    · rw [if_pos h]
    · rw [if_neg h]
      exact (ih.cons y).trans (List.Perm.swap x y ys)

lemma sortTiles_perm (l : List Tile) : (sortTiles l).Perm l := by
  induction l with
  | nil => exact List.Perm.refl _
  | cons x xs ih =>
    exact (insertTile_perm x (sortTiles xs)).trans (ih.cons x)

lemma pairwise_insertTile (x : Tile) :
    ∀ l : List Tile, l.Pairwise (fun a b => keyLE a b = true) →
      (insertTile x l).Pairwise (fun a b => keyLE a b = true) := by
  intro l
  induction l with
  | nil => intro _; simp [insertTile]
  | cons y ys ih =>
    intro hl
    unfold insertTile
    by_cases h : keyLE x y = true
    · rw [if_pos h]
      refine List.Pairwise.cons ?_ hl
      intro z hz
      rcases List.mem_cons.mp hz with rfl | hz'
      · exact h
      · exact keyLE_trans x y z h (List.rel_of_pairwise_cons hl hz')
    · rw [if_neg h]
      have hyx : keyLE y x = true := (keyLE_total x y).resolve_left h
      refine List.Pairwise.cons ?_ (ih hl.of_cons)
      intro z hz
      have hz2 : z = x ∨ z ∈ ys := by
        simpa using (insertTile_perm x ys).mem_iff.mp hz
      rcases hz2 with rfl | hz'
      · exact hyx
      · exact List.rel_of_pairwise_cons hl hz'

lemma sortTiles_pairwise (l : List Tile) :
    (sortTiles l).Pairwise (fun a b => keyLE a b = true) := by
  induction l with
  | nil => simp [sortTiles]
  | cons x xs ih => exact pairwise_insertTile x (sortTiles xs) ih

lemma eq_of_perm_sorted_nodupkeys :
    ∀ {l1 l2 : List Tile}, l1.Perm l2 →
      l1.Pairwise (fun a b => keyLE a b = true) →
      l2.Pairwise (fun a b => keyLE a b = true) →
      (l1.map tileKey).Nodup → l1 = l2 := by
  intro l1
  induction l1 with
  | nil =>
    intro l2 hp _ _ _
    exact (List.Perm.eq_nil hp.symm).symm
  | cons x t1 ih =>
    intro l2 hp hs1 hs2 hnd
    cases l2 with
    | nil =>
      have := hp.length_eq
      simp at this
    | cons y t2 =>
      by_cases hxy : x = y
      · subst hxy
        have hp' := hp.cons_inv
        have hnd' : (t1.map tileKey).Nodup := by
          rw [List.map_cons] at hnd
          exact (List.nodup_cons.mp hnd).2
        have := ih hp' hs1.of_cons hs2.of_cons hnd'
        rw [this]
      · exfalso
        have hx2 : x ∈ y :: t2 := hp.mem_iff.mp (List.mem_cons_self x t1)
        have hy1 : y ∈ x :: t1 := hp.mem_iff.mpr (List.mem_cons_self y t2)
        have hy1' : y ∈ t1 := by
          rcases List.mem_cons.mp hy1 with h | h
          · exact absurd h.symm hxy
          · exact h
        have hx2' : x ∈ t2 := by
          rcases List.mem_cons.mp hx2 with h | h
          · exact absurd h hxy
          · exact h
        have h1 : keyLE x y = true := List.rel_of_pairwise_cons hs1 hy1'
        have h2 : keyLE y x = true := List.rel_of_pairwise_cons hs2 hx2'
        have hk : tileKey x = tileKey y := keyLE_antisymm_keys x y h1 h2
        have hnd1 : tileKey x ∉ t1.map tileKey := by
          rw [List.map_cons] at hnd
          exact (List.nodup_cons.mp hnd).1
        exact hnd1 (hk ▸ List.mem_map_of_mem tileKey hy1')

/-- Amended C9: the output of `load_data_for_date` is independent of the
order in which the tile files are discovered, provided the surviving tiles
have pairwise distinct `(first latitude, first longitude)` keys; with tied
keys, Python's stable sort keeps the discovery order, so the output can
depend on it. -/
theorem claim9_theorem (d : String) (coords : ℚ × ℚ × ℚ × ℚ)
    (files1 files2 : List RawFile) (hperm : files1.Perm files2)
    (hnodup : ((load_data_for_date d coords files1).map tileKey).Nodup) :
    load_data_for_date d coords files1 = load_data_for_date d coords files2 := by
  have htiles : (files1.filterMap (fun f =>
      if f.date = d then trimFile coords f else none)).Perm
      (files2.filterMap (fun f => if f.date = d then trimFile coords f else none)) :=
    hperm.filterMap _
  have hperm12 : (load_data_for_date d coords files1).Perm
      (load_data_for_date d coords files2) :=
    ((sortTiles_perm _).trans htiles).trans (sortTiles_perm _).symm
  exact eq_of_perm_sorted_nodupkeys hperm12 (sortTiles_pairwise _)
    (sortTiles_pairwise _) hnodup

/-- Counterexample to C9 as stated: two tile files share the same first
latitude and first longitude; the stable sort keeps them in discovery
order, so the two discovery orders of the same file set yield different
TileSets. -/
theorem claim9_counterexample :
    ([⟨"d", [[5]], [10], [30]⟩, ⟨"d", [[7]], [10], [30]⟩] : List RawFile).Perm
        [⟨"d", [[7]], [10], [30]⟩, ⟨"d", [[5]], [10], [30]⟩]
    ∧ load_data_for_date "d" (9, 23, 21, 39)
        [⟨"d", [[5]], [10], [30]⟩, ⟨"d", [[7]], [10], [30]⟩]
      ≠ load_data_for_date "d" (9, 23, 21, 39)
        [⟨"d", [[7]], [10], [30]⟩, ⟨"d", [[5]], [10], [30]⟩] := by
  exact ⟨List.Perm.swap _ _ _, by decide⟩

/-- Witness for C9 (amended): with distinct first latitudes the two
discovery orders load to the identical TileSet. -/
theorem claim9_witness :
    load_data_for_date "d" (9, 23, 21, 39)
        [⟨"d", [[5]], [10], [30]⟩, ⟨"d", [[7]], [11], [30]⟩]
      = load_data_for_date "d" (9, 23, 21, 39)
        [⟨"d", [[7]], [11], [30]⟩, ⟨"d", [[5]], [10], [30]⟩] :=
  claim9_theorem "d" (9, 23, 21, 39) _ _ (List.Perm.swap _ _ _) (by decide)

lemma length_pySlice {α : Type} (l : List α) (a b : ℕ) :
    (pySlice l a b).length = min (b + 1 - a) (l.length - a) := by
  simp [pySlice]

lemma mem_of_mem_pySlice {α : Type} {l : List α} {a b : ℕ} {x : α}
    (h : x ∈ pySlice l a b) : x ∈ l := by
  have h1 : (pySlice l a b).Sublist (l.drop a) := List.take_sublist _ _
  have h2 : (l.drop a).Sublist l := List.drop_sublist _ _
  exact (h1.trans h2).mem h

lemma maskNegatives_length (m : List (List ℚ)) :
    (maskNegatives m).length = m.length := by
  simp [maskNegatives]

lemma trimFile_aligned (coords : ℚ × ℚ × ℚ × ℚ) (f : RawFile)
    (hraw : RawAligned f) (t : Tile) (ht : trimFile coords f = some t) :
    Aligned t := by
  obtain ⟨s, n, w, e⟩ := coords
  simp only [trimFile] at ht
  by_cases hcond : validIdxs (fun q => decide (w ≤ q) && decide (q ≤ e)) f.lon = []
      ∨ validIdxs (fun q => decide (s ≤ q) && decide (q ≤ n)) f.lat = []
  · rw [if_pos hcond] at ht
    exact absurd ht (by simp)
  · rw [if_neg hcond] at ht
    have ht' := Option.some.inj ht
    subst ht'
    constructor
    · simp only [List.length_map, length_pySlice, maskNegatives_length, hraw.1]
    · intro row hrow
      rcases List.mem_map.mp hrow with ⟨row0, hrow0, rfl⟩
      have hrow0' : row0 ∈ maskNegatives f.light := mem_of_mem_pySlice hrow0
      rcases List.mem_map.mp hrow0' with ⟨rowq, hrowq, rfl⟩
      have hlen : rowq.length = f.lon.length := hraw.2 rowq hrowq
      simp only [length_pySlice, List.length_map, hlen]

lemma load_aligned (d : String) (coords : ℚ × ℚ × ℚ × ℚ) (files : List RawFile)
    (hraw : ∀ f ∈ files, RawAligned f) :
    ∀ t ∈ load_data_for_date d coords files, Aligned t := by
  intro t ht
  have ht2 : t ∈ files.filterMap (fun f =>
      if f.date = d then trimFile coords f else none) :=
    (sortTiles_perm _).mem_iff.mp ht
  rcases List.mem_filterMap.mp ht2 with ⟨f, hf, hft⟩
  by_cases hd : f.date = d
  · rw [if_pos hd] at hft
    exact trimFile_aligned coords f (hraw f hf) t hft
  · rw [if_neg hd] at hft
    exact absurd hft (by simp)

lemma normalize_aligned (l : List Tile) (hal : ∀ t ∈ l, Aligned t) :
    ∀ t ∈ normalize_data l, Aligned t := by
  intro t2 ht2
  simp only [normalize_data] at ht2
  rcases List.mem_map.mp ht2 with ⟨t, ht, rfl⟩
  constructor
  · simp [(hal t ht).1]
  · intro row hrow
    rcases List.mem_map.mp hrow with ⟨row0, hrow0, rfl⟩
    simp [(hal t ht).2 row0 hrow0]

lemma row_length_of_shape {m : Mat} {C : ℕ}
    (hlen : ∀ i, i < m.length → (m.getD i []).length = C) :
    ∀ row ∈ m, row.length = C := by
  intro row hrow
  rcases List.mem_iff_getElem.mp hrow with ⟨i, hi, heq⟩
  have := hlen i hi
  rwa [List.getD_eq_getElem _ _ hi, heq] at this

lemma whereZeroNegOne_length (m : Mat) :
    (whereZeroNegOne m).length = m.length := by
  simp [whereZeroNegOne]

lemma zipWith2d_aligned (f : Val → Val → Val) (b m2 : Mat) (lonlen : ℕ)
    (hlen : b.length = m2.length)
    (hshape : ∀ i, i < b.length → (b.getD i []).length = (m2.getD i []).length)
    (hcols : ∀ row ∈ b, row.length = lonlen) :
    (zipWith2d f m2 b).length = b.length
    ∧ ∀ row ∈ zipWith2d f m2 b, row.length = lonlen := by
  constructor
  · simp only [zipWith2d, List.length_zipWith]
    omega
  · intro row hrow
    rcases List.mem_iff_getElem.mp hrow with ⟨i, hi, heq⟩
    have hilen : i < min m2.length b.length := by
      simpa [zipWith2d, List.length_zipWith] using hi
    have hi1 : i < b.length := by omega
    have hi2 : i < m2.length := by omega
    have hrowD : (zipWith2d f m2 b).getD i [] = row := by
      rw [List.getD_eq_getElem _ _ hi, heq]
    have hlen2 : ((zipWith2d f m2 b).getD i []).length
        = min ((m2.getD i []).length) ((b.getD i []).length) := by
      unfold zipWith2d
      rw [getD_zipWith_lt (List.zipWith f) m2 b i hi2 hi1 [] [] []]
      exact List.length_zipWith ..
    rw [hrowD] at hlen2
    have hmem : b.getD i [] ∈ b := by
      rw [List.getD_eq_getElem _ _ hi1]
      exact List.getElem_mem _
    rw [hlen2, ← hshape i hi1, hcols _ hmem]
    exact min_self _

lemma diffPair_aligned (relative : Bool) (d1 d2 : Tile)
    (h1 : Aligned d1) (hs : MatShapeEq d1.values d2.values) :
    Aligned (diffPair relative d1 d2) := by
  obtain ⟨hrows1, hcols1⟩ := h1
  obtain ⟨hlen, hshape⟩ := hs
  cases relative with
  | false =>
    have key := zipWith2d_aligned Val.sub d1.values d2.values d1.lon.length
      hlen hshape hcols1
    constructor
    · show (absoluteDifference d1.values d2.values).length = d1.lat.length
      unfold absoluteDifference
      rw [key.1, hrows1]
    · intro row hrow
      exact key.2 row hrow
  | true =>
    have hwlen : (whereZeroNegOne d1.values).length = d1.values.length :=
      whereZeroNegOne_length d1.values
    have key := zipWith2d_aligned Val.div (whereZeroNegOne d1.values) d2.values
      d1.lon.length (by rw [hwlen, hlen])
      (by
        intro i hi
        have hi1 : i < d1.values.length := by rwa [hwlen] at hi
        unfold whereZeroNegOne
        rw [getD_map_lt _ _ i hi1 [] []]
        simp only [List.length_map]
        exact hshape i hi1)
      (by
        intro row hrow
        rcases List.mem_map.mp hrow with ⟨row0, hrow0, rfl⟩
        simp only [List.length_map]
        exact hcols1 row0 hrow0)
    constructor
    · show (relativeDifference d1.values d2.values).length = d1.lat.length
      unfold relativeDifference
      rw [key.1, hwlen, hrows1]
    · intro row hrow
      exact key.2 row hrow

lemma length_everyNthFrom {α : Type} (n : ℕ) (hn : 1 ≤ n) :
    ∀ (l : List α) (k : ℕ),
      (everyNthFrom n l k).length = (l.length - k + n - 1) / n := by
  intro l
  induction l with
  | nil =>
    intro k
    simp only [everyNthFrom, List.length_nil, Nat.zero_sub]
    rw [Nat.div_eq_of_lt (by omega)]
  | cons x xs ih =>
    intro k
    cases k with
    | zero =>
      simp only [everyNthFrom, List.length_cons]
      rw [ih (n - 1)]
      by_cases hc : n - 1 ≤ xs.length
      · have h1 : xs.length - (n - 1) + n - 1 = xs.length := by omega
        rw [h1]
        have h2 : xs.length + 1 - 0 + n - 1 = xs.length + n := by omega
        rw [h2]
        rw [Nat.add_div_right _ (by omega)]
      · have h1 : xs.length - (n - 1) = 0 := by omega
        rw [h1]
        have h2 : 0 + n - 1 = n - 1 := by omega
        rw [h2, Nat.div_eq_of_lt (by omega)]
        have h3 : xs.length + 1 - 0 + n - 1 = xs.length + n := by omega
        rw [h3]
        have h4 : (xs.length + n) / n = 1 :=
          Nat.div_eq_of_lt_le (by omega) (by omega)
        rw [h4]
    | succ j =>
      simp only [everyNthFrom, List.length_cons]
      rw [ih j]
      congr 1
      omega

lemma length_everyNth {α : Type} (l : List α) (n : ℕ) (hn : 1 ≤ n) :
    (everyNth l n).length = (l.length + n - 1) / n := by
  unfold everyNth
  have h0 : l.length - 0 = l.length := by omega
  rw [length_everyNthFrom n hn l 0, h0]

lemma ceilDiv_of_dvd (R n : ℕ) (hn : 1 ≤ n) (hdvd : n ∣ R) :
    (R + n - 1) / n = R / n := by
  obtain ⟨k, rfl⟩ := hdvd
  have h1 : n * k + n - 1 = n * k + (n - 1) := by omega
  rw [h1, Nat.mul_add_div (by omega), Nat.div_eq_of_lt (by omega),
    Nat.mul_div_cancel_left _ (by omega)]
  omega

lemma ceilDiv_of_not_dvd (R n : ℕ) (hn : 1 ≤ n) (hdvd : ¬ n ∣ R) :
    (R + n - 1) / n = R / n + 1 := by
  have hmod : R % n + n * (R / n) = R := Nat.mod_add_div R n
  have hr0 : R % n ≠ 0 := fun h => hdvd (Nat.dvd_of_mod_eq_zero h)
  have hrlt : R % n < n := Nat.mod_lt _ (by omega)
  have h1 : R + n - 1 = n * (R / n) + (R % n + n - 1) := by omega
  rw [h1, Nat.mul_add_div (by omega)]
  have h2 : (R % n + n - 1) / n = 1 :=
    Nat.div_eq_of_lt_le (by omega) (by omega)
  rw [h2]

lemma floor_eq_ceil_iff_dvd (R n : ℕ) (hn : 1 ≤ n) :
    R / n = (R + n - 1) / n ↔ n ∣ R := by
  constructor
  · intro h
    by_contra hdvd
    rw [ceilDiv_of_not_dvd R n hn hdvd] at h
    omega
  · intro hdvd
    rw [ceilDiv_of_dvd R n hn hdvd]

lemma block_average_shape (m : Mat) (n : ℕ) (hn : 1 ≤ n) (out : Mat)
    (hout : block_average m n = some out) :
    out.length = m.length / n
    ∧ ∀ row ∈ out, row.length = (m.headD []).length / n := by
  simp only [block_average] at hout
  by_cases hcond : m.length - m.length % n = 0
      ∨ (m.headD []).length - (m.headD []).length % n = 0
  · rw [if_pos hcond] at hout
    exact absurd hout (by simp)
  · rw [if_neg hcond] at hout
    have hout' := Option.some.inj hout
    subst hout'
    have hnyq : (m.length - m.length % n) / n = m.length / n := by
      rw [trim_eq_mul_div]
      exact Nat.mul_div_cancel_left _ (by omega)
    have hnxq : ((m.headD []).length - (m.headD []).length % n) / n
        = (m.headD []).length / n := by
      rw [trim_eq_mul_div]
      exact Nat.mul_div_cancel_left _ (by omega)
    refine ⟨?_, ?_⟩
    · simp only [List.length_map, List.length_range]
      exact hnyq
    · intro row hrow
      rcases List.mem_map.mp hrow with ⟨i, _, rfl⟩
      simp only [List.length_map, List.length_range]
      exact hnxq

lemma block_average_survives (m : Mat) (n : ℕ) (hn : 1 ≤ n) (out : Mat)
    (hout : block_average m n = some out) :
    n ≤ m.length ∧ n ≤ (m.headD []).length := by
  simp only [block_average] at hout
  by_cases hcond : m.length - m.length % n = 0
      ∨ (m.headD []).length - (m.headD []).length % n = 0
  · rw [if_pos hcond] at hout
    exact absurd hout (by simp)
  · push_neg at hcond
    constructor
    · by_contra h
      exact hcond.1 ((trim_eq_zero_iff _ n hn).mpr (by omega))
    · by_contra h
      exact hcond.2 ((trim_eq_zero_iff _ n hn).mpr (by omega))

lemma chunkTile_alignment (n : ℕ) (t : Tile) (tc : Tile) (hn : 1 ≤ n)
    (hal : Aligned t) (htc : chunkTile n t = some tc) :
    tc.values.length = t.lat.length / n
    ∧ tc.lat.length = (t.lat.length + n - 1) / n
    ∧ (Aligned tc ↔ (n ∣ t.lat.length ∧ n ∣ t.lon.length)) := by
  obtain ⟨hrows, hcols⟩ := hal
  unfold chunkTile at htc
  cases hba : block_average t.values n with
  | none => rw [hba] at htc; exact absurd htc (by simp)
  | some out =>
    rw [hba] at htc
    have htc' := Option.some.inj htc
    subst htc'
    have hsurv := block_average_survives t.values n hn out hba
    have hshape := block_average_shape t.values n hn out hba
    have hR : t.values.length = t.lat.length := hrows
    have hne : t.values ≠ [] := by
      intro h
      rw [h] at hsurv
      simp at hsurv
      omega
    have hhead : (t.values.headD []).length = t.lon.length := by
      cases hv : t.values with
      | nil => exact absurd hv hne
      | cons r rest =>
        simp only [List.headD_cons]
        exact hcols r (hv ▸ List.mem_cons_self r rest)
    have hrowsc : out.length = t.lat.length / n := by
      rw [hshape.1, hR]
    have hcolsc : ∀ row ∈ out, row.length = t.lon.length / n := by
      intro row hrow
      rw [hshape.2 row hrow, hhead]
    have hlatlen : (everyNth t.lat n).length = (t.lat.length + n - 1) / n :=
      length_everyNth t.lat n hn
    have hlonlen : (everyNth t.lon n).length = (t.lon.length + n - 1) / n :=
      length_everyNth t.lon n hn
    refine ⟨hrowsc, hlatlen, ?_⟩
    have hRn : n ≤ t.lat.length := by rw [← hR]; exact hsurv.1
    have hCn : n ≤ t.lon.length := by rw [← hhead]; exact hsurv.2
    have houtne : out ≠ [] := by
      intro h
      rw [h] at hrowsc
      simp only [List.length_nil] at hrowsc
      have : 1 ≤ t.lat.length / n := (Nat.one_le_div_iff (by omega)).mpr hRn
      omega
    constructor
    · intro ⟨ha1, ha2⟩
      constructor
      · rw [hrowsc, hlatlen] at ha1
        exact (floor_eq_ceil_iff_dvd _ n hn).mp ha1
      · cases hv : out with
        | nil => exact absurd hv houtne
        | cons r rest =>
          have hr : r ∈ out := hv ▸ List.mem_cons_self r rest
          have := ha2 r (hv ▸ List.mem_cons_self r rest)
          rw [hcolsc r hr, hlonlen] at this
          exact (floor_eq_ceil_iff_dvd _ n hn).mp this
    · intro ⟨hd1, hd2⟩
      constructor
      · rw [hrowsc, hlatlen, ceilDiv_of_dvd _ n hn hd1]
      · intro row hrow
        rw [hcolsc row hrow, hlonlen, ceilDiv_of_dvd _ n hn hd2]

/-- Amended C2: the alignment invariant (grid rows = latitude length, grid
columns = longitude length) is preserved by `load_data_for_date` (from
well-formed raw files), by `normalize_data`, and by the differencing step
(for equal-shaped pairs).  `chunk_data`, however, subsamples each
coordinate vector over the full (untrimmed) range, giving it
`⌈len/n⌉` entries while the grid keeps `⌊len/n⌋` rows/columns, so a
surviving chunked tile is aligned exactly when `n` divides both original
coordinate lengths — not in general. -/
theorem claim2_theorem :
    (∀ (d : String) (coords : ℚ × ℚ × ℚ × ℚ) (files : List RawFile),
        (∀ f ∈ files, RawAligned f) →
        ∀ t ∈ load_data_for_date d coords files, Aligned t)
    ∧ (∀ l : List Tile, (∀ t ∈ l, Aligned t) →
        ∀ t ∈ normalize_data l, Aligned t)
    ∧ (∀ (relative : Bool) (d1 d2 : Tile), Aligned d1 →
        MatShapeEq d1.values d2.values → Aligned (diffPair relative d1 d2))
    ∧ (∀ (n : ℕ) (t tc : Tile), 1 ≤ n → Aligned t → chunkTile n t = some tc →
        tc.values.length = t.lat.length / n
        ∧ tc.lat.length = (t.lat.length + n - 1) / n
        ∧ (Aligned tc ↔ (n ∣ t.lat.length ∧ n ∣ t.lon.length))) :=
  ⟨load_aligned, normalize_aligned,
    fun relative d1 d2 h1 hs => diffPair_aligned relative d1 d2 h1 hs,
    fun n t tc hn hal htc => chunkTile_alignment n t tc hn hal htc⟩

/-- Counterexample to C2 as stated: chunking an aligned 3×2 tile with
factor 2 gives a 1×1 grid but a 2-entry latitude vector — the coordinate
vectors are subsampled over the full range, not the trimmed range, so the
alignment invariant is broken when a dimension is not a multiple of `n`. -/
theorem claim2_counterexample :
    chunk_data [⟨[[some 1, some 2], [some 3, some 4], [some 5, some 6]],
        [10, 11, 12], [22, 23]⟩] 2
      = [⟨[[some (5/2)]], [10, 12], [22]⟩]
    ∧ ¬ Aligned (⟨[[some (5/2)]], [10, 12], [22]⟩ : Tile) :=
  ⟨by with_unfolding_all decide, by decide⟩

/-- Witness for C2 (amended): a loaded tile from an aligned raw file is
aligned, and a 2×2 tile chunked with factor 2 stays aligned (2 divides both
dimensions). -/
theorem claim2_witness :
    Aligned (⟨[[some 1, none], [some 3, some 4]], [10, 11], [22, 23]⟩ : Tile)
    ∧ Aligned (⟨[[some 4]], [10], [22]⟩ : Tile) := by
  constructor
  · exact claim2_theorem.1 "d" (9, 23, 21, 39)
      [⟨"d", [[1, -2], [3, 4]], [10, 11], [22, 23]⟩] (by decide) _ (by decide)
  · have hd := claim2_theorem.2.2.2 2
      ⟨[[some 1, some 3], [some 5, some 7]], [10, 11], [22, 23]⟩
      ⟨[[some 4]], [10], [22]⟩ (by decide) (by decide)
      (by with_unfolding_all decide)
    exact hd.2.2.mpr ⟨by decide, by decide⟩

lemma foldl_min_le_init (xs : List ℕ) : ∀ a, xs.foldl min a ≤ a := by
  induction xs with
  | nil => intro a; exact le_rfl
  | cons y ys ih =>
    intro a
    simp only [List.foldl_cons]
    exact le_trans (ih (min a y)) (min_le_left a y)

lemma foldl_min_le_mem (xs : List ℕ) : ∀ a, ∀ x ∈ xs, xs.foldl min a ≤ x := by
  induction xs with
  | nil => intro a x hx; simp at hx
  | cons y ys ih =>
    intro a x hx
    simp only [List.foldl_cons]
    rcases List.mem_cons.mp hx with rfl | hx'
    · exact le_trans (foldl_min_le_init ys (min a x)) (min_le_right a x)
    · exact ih (min a y) x hx'

lemma foldl_min_mem_or (xs : List ℕ) :
    ∀ a, xs.foldl min a = a ∨ xs.foldl min a ∈ xs := by
  induction xs with
  | nil => intro a; exact Or.inl rfl
  | cons y ys ih =>
    intro a
    simp only [List.foldl_cons]
    rcases ih (min a y) with h | h
    · rcases min_choice a y with hc | hc
      · exact Or.inl (h.trans hc)
      · exact Or.inr (List.mem_cons.mpr (Or.inl (h.trans hc)))
    · exact Or.inr (List.mem_cons.mpr (Or.inr h))

lemma foldl_max_init_le (xs : List ℕ) : ∀ a, a ≤ xs.foldl max a := by
  induction xs with
  | nil => intro a; exact le_rfl
  | cons y ys ih =>
    intro a
    simp only [List.foldl_cons]
    exact le_trans (le_max_left a y) (ih (max a y))

lemma foldl_max_mem_le (xs : List ℕ) : ∀ a, ∀ x ∈ xs, x ≤ xs.foldl max a := by
  induction xs with
  | nil => intro a x hx; simp at hx
  | cons y ys ih =>
    intro a x hx
    simp only [List.foldl_cons]
    rcases List.mem_cons.mp hx with rfl | hx'
    · exact le_trans (le_max_right a x) (foldl_max_init_le ys (max a x))
    · exact ih (max a y) x hx'

lemma foldl_max_mem_or (xs : List ℕ) :
    ∀ a, xs.foldl max a = a ∨ xs.foldl max a ∈ xs := by
  induction xs with
  | nil => intro a; exact Or.inl rfl
  | cons y ys ih =>
    intro a
    simp only [List.foldl_cons]
    rcases ih (max a y) with h | h
    · rcases max_choice a y with hc | hc
      · exact Or.inl (h.trans hc)
      · exact Or.inr (List.mem_cons.mpr (Or.inl (h.trans hc)))
    · exact Or.inr (List.mem_cons.mpr (Or.inr h))

lemma natListMin_mem (l : List ℕ) (h : l ≠ []) : natListMin l ∈ l := by
  cases l with
  | nil => exact absurd rfl h
  | cons x xs =>
    unfold natListMin
    rcases foldl_min_mem_or xs x with h' | h'
    · exact List.mem_cons.mpr (Or.inl h')
    · exact List.mem_cons.mpr (Or.inr h')

lemma natListMin_le (l : List ℕ) (x : ℕ) (hx : x ∈ l) : natListMin l ≤ x := by
  cases l with
  | nil => simp at hx
  | cons y ys =>
    unfold natListMin
    rcases List.mem_cons.mp hx with rfl | hx'
    · exact foldl_min_le_init ys x
    · exact foldl_min_le_mem ys y x hx'

lemma natListMax_mem (l : List ℕ) (h : l ≠ []) : natListMax l ∈ l := by
  cases l with
  | nil => exact absurd rfl h
  | cons x xs =>
    unfold natListMax
    rcases foldl_max_mem_or xs x with h' | h'
    · exact List.mem_cons.mpr (Or.inl h')
    · exact List.mem_cons.mpr (Or.inr h')

lemma natListMax_ge (l : List ℕ) (x : ℕ) (hx : x ∈ l) : x ≤ natListMax l := by
  cases l with
  | nil => simp at hx
  | cons y ys =>
    unfold natListMax
    rcases List.mem_cons.mp hx with rfl | hx'
    · exact foldl_max_init_le ys x
    · exact foldl_max_mem_le ys y x hx'

lemma mem_validIdxs (p : ℚ → Bool) (l : List ℚ) (i : ℕ) :
    i ∈ validIdxs p l ↔ i < l.length ∧ p (l.getD i 0) = true := by
  simp [validIdxs, List.mem_filter, List.mem_range]

lemma validIdxs_eq_nil_iff (p : ℚ → Bool) (l : List ℚ) :
    validIdxs p l = [] ↔ ∀ x ∈ l, ¬ p x = true := by
  unfold validIdxs
  rw [List.filter_eq_nil_iff]
  constructor
  · intro h x hx
    rcases List.mem_iff_getElem.mp hx with ⟨i, hi, heq⟩
    have := h i (List.mem_range.mpr hi)
    rw [List.getD_eq_getElem _ _ hi, heq] at this
    simpa using this
  · intro h i hi
    have hi' : i < l.length := List.mem_range.mp hi
    have hmem : l.getD i 0 ∈ l := by
      rw [List.getD_eq_getElem _ _ hi']
      exact List.getElem_mem _
    simpa using h _ hmem

lemma mem_pySlice_getD (l : List ℚ) (a b : ℕ) (x : ℚ) (h : x ∈ pySlice l a b) :
    ∃ k, a + k < l.length ∧ k < b + 1 - a ∧ l.getD (a + k) 0 = x := by
  unfold pySlice at h
  rcases List.mem_iff_getElem.mp h with ⟨k, hk, heq⟩
  have hk' : k < min (b + 1 - a) (l.length - a) := by
    simpa [List.length_take, List.length_drop] using hk
  have hklen : a + k < l.length := by omega
  refine ⟨k, hklen, by omega, ?_⟩
  rw [List.getD_eq_getElem _ _ hklen]
  rw [← heq]
  rw [List.getElem_take]
  exact (List.getElem_drop ..).symm

lemma pySlice_inbounds (l : List ℚ) (lo hi : ℚ)
    (hmono : l.Pairwise (· ≤ ·) ∨ l.Pairwise (fun u v => v ≤ u))
    (hne : validIdxs (fun q => decide (lo ≤ q) && decide (q ≤ hi)) l ≠ []) :
    ∀ x ∈ pySlice l
        (natListMin (validIdxs (fun q => decide (lo ≤ q) && decide (q ≤ hi)) l))
        (natListMax (validIdxs (fun q => decide (lo ≤ q) && decide (q ≤ hi)) l)),
      lo ≤ x ∧ x ≤ hi := by
  intro x hx
  have hav := natListMin_mem _ hne
  have hbv := natListMax_mem _ hne
  rw [mem_validIdxs] at hav hbv
  have hab : natListMin (validIdxs (fun q => decide (lo ≤ q) && decide (q ≤ hi)) l)
      ≤ natListMax (validIdxs (fun q => decide (lo ≤ q) && decide (q ≤ hi)) l) :=
    natListMin_le _ _ (natListMax_mem _ hne)
  obtain ⟨k, hklen, hkb, hkeq⟩ := mem_pySlice_getD l _ _ x hx
  set a := natListMin (validIdxs (fun q => decide (lo ≤ q) && decide (q ≤ hi)) l) with ha
  set b := natListMax (validIdxs (fun q => decide (lo ≤ q) && decide (q ≤ hi)) l) with hb
  obtain ⟨halen, hpa⟩ := hav
  obtain ⟨hblen, hpb⟩ := hbv
  have hpa' : lo ≤ l.getD a 0 ∧ l.getD a 0 ≤ hi := by simpa using hpa
  have hpb' : lo ≤ l.getD b 0 ∧ l.getD b 0 ≤ hi := by simpa using hpb
  have hib : a + k ≤ b := by omega
  have hgetle : ∀ i j : ℕ, i ≤ j → (hj : j < l.length) →
      (l.Pairwise (· ≤ ·) → l.getD i 0 ≤ l.getD j 0)
      ∧ (l.Pairwise (fun u v => v ≤ u) → l.getD j 0 ≤ l.getD i 0) := by
    intro i j hij hj
    have hi : i < l.length := by omega
    rcases Nat.eq_or_lt_of_le hij with rfl | hlt
    · exact ⟨fun _ => le_rfl, fun _ => le_rfl⟩
    · constructor
      · intro hasc
        have := (List.pairwise_iff_getElem.mp hasc) i j hi hj hlt
        rwa [List.getD_eq_getElem _ _ hi, List.getD_eq_getElem _ _ hj]
      · intro hdesc
        have := (List.pairwise_iff_getElem.mp hdesc) i j hi hj hlt
        rwa [List.getD_eq_getElem _ _ hi, List.getD_eq_getElem _ _ hj]
  rcases hmono with hasc | hdesc
  · constructor
    · calc lo ≤ l.getD a 0 := hpa'.1
        _ ≤ l.getD (a + k) 0 := (hgetle a (a + k) (by omega) hklen).1 hasc
        _ = x := hkeq
    · calc x = l.getD (a + k) 0 := hkeq.symm
        _ ≤ l.getD b 0 := (hgetle (a + k) b hib hblen).1 hasc
        _ ≤ hi := hpb'.2
  · constructor
    · calc lo ≤ l.getD b 0 := hpb'.1
        _ ≤ l.getD (a + k) 0 := (hgetle (a + k) b hib hblen).2 hdesc
        _ = x := hkeq
    · calc x = l.getD (a + k) 0 := hkeq.symm
        _ ≤ l.getD a 0 := (hgetle a (a + k) (by omega) hklen).2 hdesc
        _ ≤ hi := hpa'.2

lemma trimFile_none_iff (s n w e : ℚ) (f : RawFile) :
    trimFile (s, n, w, e) f = none ↔
      ((∀ x ∈ f.lon, ¬(w ≤ x ∧ x ≤ e)) ∨ (∀ x ∈ f.lat, ¬(s ≤ x ∧ x ≤ n))) := by
  simp only [trimFile]
  by_cases hcond : validIdxs (fun q => decide (w ≤ q) && decide (q ≤ e)) f.lon = []
      ∨ validIdxs (fun q => decide (s ≤ q) && decide (q ≤ n)) f.lat = []
  · rw [if_pos hcond]
    simp only [true_iff]
    rcases hcond with h | h
    · left
      intro x hx
      simpa using (validIdxs_eq_nil_iff _ _).mp h x hx
    · right
      intro x hx
      simpa using (validIdxs_eq_nil_iff _ _).mp h x hx
  · rw [if_neg hcond]
    constructor
    · intro h
      exact absurd h (by simp)
    · intro h
      exfalso
      push_neg at hcond
      rcases h with h | h
      · apply hcond.1
        rw [validIdxs_eq_nil_iff]
        intro x hx
        simpa using h x hx
      · apply hcond.2
        rw [validIdxs_eq_nil_iff]
        intro x hx
        simpa using h x hx

lemma trimFile_crop (s n w e : ℚ) (f : RawFile) (t : Tile)
    (ht : trimFile (s, n, w, e) f = some t) :
    t.lat = pySlice f.lat
        (natListMin (validIdxs (fun q => decide (s ≤ q) && decide (q ≤ n)) f.lat))
        (natListMax (validIdxs (fun q => decide (s ≤ q) && decide (q ≤ n)) f.lat))
    ∧ t.lon = pySlice f.lon
        (natListMin (validIdxs (fun q => decide (w ≤ q) && decide (q ≤ e)) f.lon))
        (natListMax (validIdxs (fun q => decide (w ≤ q) && decide (q ≤ e)) f.lon))
    ∧ t.values = (pySlice (maskNegatives f.light)
        (natListMin (validIdxs (fun q => decide (s ≤ q) && decide (q ≤ n)) f.lat))
        (natListMax (validIdxs (fun q => decide (s ≤ q) && decide (q ≤ n)) f.lat))).map
          (fun row => pySlice row
            (natListMin (validIdxs (fun q => decide (w ≤ q) && decide (q ≤ e)) f.lon))
            (natListMax (validIdxs (fun q => decide (w ≤ q) && decide (q ≤ e)) f.lon))) := by
  simp only [trimFile] at ht
  by_cases hcond : validIdxs (fun q => decide (w ≤ q) && decide (q ≤ e)) f.lon = []
      ∨ validIdxs (fun q => decide (s ≤ q) && decide (q ≤ n)) f.lat = []
  · rw [if_pos hcond] at ht
    exact absurd ht (by simp)
  · rw [if_neg hcond] at ht
    have ht' := Option.some.inj ht
    subst ht'
    exact ⟨rfl, rfl, rfl⟩

lemma trimFile_inbounds (s n w e : ℚ) (f : RawFile) (t : Tile)
    (hlat : f.lat.Pairwise (· ≤ ·) ∨ f.lat.Pairwise (fun u v => v ≤ u))
    (hlon : f.lon.Pairwise (· ≤ ·) ∨ f.lon.Pairwise (fun u v => v ≤ u))
    (ht : trimFile (s, n, w, e) f = some t) :
    (∀ x ∈ t.lat, s ≤ x ∧ x ≤ n) ∧ (∀ x ∈ t.lon, w ≤ x ∧ x ≤ e) := by
  have hcrop := trimFile_crop s n w e f t ht
  have hcond : ¬ (validIdxs (fun q => decide (w ≤ q) && decide (q ≤ e)) f.lon = []
      ∨ validIdxs (fun q => decide (s ≤ q) && decide (q ≤ n)) f.lat = []) := by
    intro hc
    have : trimFile (s, n, w, e) f = none := by
      simp only [trimFile]
      rw [if_pos hc]
    rw [ht] at this
    exact absurd this (by simp)
  push_neg at hcond
  constructor
  · intro x hx
    rw [hcrop.1] at hx
    exact pySlice_inbounds f.lat s n hlat hcond.2 x hx
  · intro x hx
    rw [hcrop.2.1] at hx
    exact pySlice_inbounds f.lon w e hlon hcond.1 x hx

/-- Amended C3: a tile file is silently skipped (no error) exactly when no
latitude or no longitude satisfies its bound; otherwise the grid and both
coordinate vectors are cropped to the slice from the first to the last
in-bounds index of each coordinate, inclusive.  For tiles whose coordinate
vectors are monotone (ascending or descending — true of raster grids),
every retained latitude lies within `[south, north]` and every retained
longitude within `[west, east]`; for a non-monotone coordinate vector the
crop can retain out-of-bounds coordinates lying between two in-bounds
ones. -/
theorem claim3_theorem (s n w e : ℚ) (d : String) (f : RawFile)
    (files : List RawFile) (_hsn : s ≤ n) (_hwe : w ≤ e) :
    (trimFile (s, n, w, e) f = none ↔
      ((∀ x ∈ f.lon, ¬(w ≤ x ∧ x ≤ e)) ∨ (∀ x ∈ f.lat, ¬(s ≤ x ∧ x ≤ n))))
    ∧ (∀ t, trimFile (s, n, w, e) f = some t →
        t.lat = pySlice f.lat
            (natListMin (validIdxs (fun q => decide (s ≤ q) && decide (q ≤ n)) f.lat))
            (natListMax (validIdxs (fun q => decide (s ≤ q) && decide (q ≤ n)) f.lat))
        ∧ t.lon = pySlice f.lon
            (natListMin (validIdxs (fun q => decide (w ≤ q) && decide (q ≤ e)) f.lon))
            (natListMax (validIdxs (fun q => decide (w ≤ q) && decide (q ≤ e)) f.lon)))
    ∧ ((f.lat.Pairwise (· ≤ ·) ∨ f.lat.Pairwise (fun u v => v ≤ u)) →
       (f.lon.Pairwise (· ≤ ·) ∨ f.lon.Pairwise (fun u v => v ≤ u)) →
       ∀ t, trimFile (s, n, w, e) f = some t →
         (∀ x ∈ t.lat, s ≤ x ∧ x ≤ n) ∧ (∀ x ∈ t.lon, w ≤ x ∧ x ≤ e))
    ∧ ((∀ g ∈ files,
          (g.lat.Pairwise (· ≤ ·) ∨ g.lat.Pairwise (fun u v => v ≤ u))
          ∧ (g.lon.Pairwise (· ≤ ·) ∨ g.lon.Pairwise (fun u v => v ≤ u))) →
       ∀ t ∈ load_data_for_date d (s, n, w, e) files,
         (∀ x ∈ t.lat, s ≤ x ∧ x ≤ n) ∧ (∀ x ∈ t.lon, w ≤ x ∧ x ≤ e)) := by
  refine ⟨trimFile_none_iff s n w e f,
    fun t ht => ⟨(trimFile_crop s n w e f t ht).1, (trimFile_crop s n w e f t ht).2.1⟩,
    fun hlat hlon t ht => trimFile_inbounds s n w e f t hlat hlon ht,
    ?_⟩
  intro hmono t ht
  have ht2 : t ∈ files.filterMap (fun g =>
      if g.date = d then trimFile (s, n, w, e) g else none) :=
    (sortTiles_perm _).mem_iff.mp ht
  rcases List.mem_filterMap.mp ht2 with ⟨g, hg, hgt⟩
  by_cases hd : g.date = d
  · rw [if_pos hd] at hgt
    exact trimFile_inbounds s n w e g t (hmono g hg).1 (hmono g hg).2 hgt
  · rw [if_neg hd] at hgt
    exact absurd hgt (by simp)

/-- Counterexample to C3 as stated: a (non-monotone) latitude vector
`[10, 100, 12]` has in-bounds entries at indices 0 and 2, so the crop keeps
indices 0..2 — retaining the out-of-bounds latitude 100. -/
theorem claim3_counterexample :
    load_data_for_date "d" (9, 23, 21, 39)
        [⟨"d", [[1], [1], [1]], [10, 100, 12], [22]⟩]
      = [⟨[[some 1], [some 1], [some 1]], [10, 100, 12], [22]⟩]
    ∧ (100 : ℚ) ∈ ([10, 100, 12] : List ℚ) ∧ ¬ ((100 : ℚ) ≤ 23) := by
  refine ⟨by decide, by decide, by norm_num⟩

/-- Witness for C3 (amended): a file with no in-bounds latitude is skipped,
and on a monotone file every retained latitude is in bounds (instantiated
at latitude 10 of the loaded tile). -/
theorem claim3_witness :
    trimFile (9, 23, 21, 39) ⟨"d", [[1]], [50], [22]⟩ = none
    ∧ ((9 : ℚ) ≤ 10 ∧ (10 : ℚ) ≤ 23) := by
  have h1 := claim3_theorem 9 23 21 39 "d" ⟨"d", [[1]], [50], [22]⟩
    [⟨"d", [[1, -2], [3, 4]], [10, 11], [22, 23]⟩] (by norm_num) (by norm_num)
  refine ⟨h1.1.mpr (Or.inr (by decide)), ?_⟩
  exact (h1.2.2.2 (by decide)
    (⟨[[some 1, none], [some 3, some 4]], [10, 11], [22, 23]⟩ : Tile)
    (by decide)).1 10 (by decide)
